import Mathlib

/-!
# Verified model of the phylo2vec utility layer

This file gives a shallow embedding, in Lean 4, of the parts of the
`phylo2vec` repository that its specification talks about: vector and matrix
validation, the vector/Newick codec, leaf-label mapping, vector sampling,
common-ancestor queries, the package import surface, and the release
version-bump helpers.  Pure Python functions under `src/` are translated
directly; the operations implemented in the compiled `_phylo2vec_core`
extension (whose sources are not in the Python tree) are modelled from the
specification, as indicated in their doc comments.
-/

namespace Decimal

/-!  ## Decimal strings

Shared helpers for reading and writing base-10 numerals as character
lists, used by the Newick codec, the label mapper, and the version-bump
scripts. -/

/-- Split a character list into its maximal leading digit run and the
rest. -/
def takeDigits (cs : List Char) : List Char × List Char :=
  (cs.takeWhile Char.isDigit, cs.dropWhile Char.isDigit)

/-- Decimal value of a digit run (most significant digit first). -/
def digitsToNat (ds : List Char) : ℕ :=
  ds.foldl (fun a c => 10 * a + (c.toNat - '0'.toNat)) 0

/-- The character of a decimal digit `d < 10`. -/
def digitChar (d : ℕ) : Char :=
  Char.ofNat (48 + d)

/-- Decimal digit string of `n`, most significant digit first. -/
def natDigits (n : ℕ) : List Char :=
  if h : n < 10 then [digitChar n]
  else natDigits (n / 10) ++ [digitChar (n % 10)]
decreasing_by
  exact Nat.div_lt_self (by omega) (by omega)

/-- Greedy decimal numeral reader: the maximal leading digit run and its
value, or `none` when the input does not start with a digit. -/
def readNat (cs : List Char) : Option (ℕ × List Char) :=
  let (ds, rest) := takeDigits cs
  if ds.isEmpty then none else some (digitsToNat ds, rest)

lemma digitChar_isDigit {d : ℕ} (h : d < 10) : (digitChar d).isDigit = true := by
  interval_cases d <;> decide

lemma digitChar_val {d : ℕ} (h : d < 10) :
    (digitChar d).toNat - '0'.toNat = d := by
  interval_cases d <;> decide

lemma natDigits_ne_nil (n : ℕ) : natDigits n ≠ [] := by
  unfold natDigits
  split
  · simp
  · simp

lemma natDigits_all_isDigit (n : ℕ) :
    ∀ c ∈ natDigits n, c.isDigit = true := by
  induction n using Nat.strong_induction_on with
  | _ n ih =>
    unfold natDigits
    split
    · next h =>
      intro c hc
      simp only [List.mem_singleton] at hc
      exact hc ▸ digitChar_isDigit h
    · next h =>
      intro c hc
      rcases List.mem_append.1 hc with hc | hc
      · exact ih (n / 10) (Nat.div_lt_self (by omega) (by omega)) c hc
      · simp only [List.mem_singleton] at hc
        exact hc ▸ digitChar_isDigit (Nat.mod_lt _ (by omega))

lemma digitsToNat_append_singleton (xs : List Char) (c : Char) :
    digitsToNat (xs ++ [c]) = 10 * digitsToNat xs + (c.toNat - '0'.toNat) := by
  simp [digitsToNat, List.foldl_append]

lemma digitsToNat_natDigits (n : ℕ) : digitsToNat (natDigits n) = n := by
  induction n using Nat.strong_induction_on with
  | _ n ih =>
    unfold natDigits
    split
    · next h =>
      simp only [digitsToNat, List.foldl_cons, List.foldl_nil, Nat.mul_zero,
        Nat.zero_add]
      exact digitChar_val h
    · next h =>
      rw [digitsToNat_append_singleton,
        ih (n / 10) (Nat.div_lt_self (by omega) (by omega)),
        digitChar_val (Nat.mod_lt _ (by omega))]
      omega

lemma natDigits_injective : Function.Injective natDigits := by
  intro a b h
  have := digitsToNat_natDigits a
  rw [h, digitsToNat_natDigits] at this
  exact this.symm

lemma takeWhile_append_of_all {p : Char → Bool} {l r : List Char}
    (hl : ∀ c ∈ l, p c = true)
    (hr : ∀ c, r.head? = some c → p c = false) :
    (l ++ r).takeWhile p = l ∧ (l ++ r).dropWhile p = r := by
  induction l with
  | nil =>
    simp only [List.nil_append]
    rcases r with _ | ⟨c, r'⟩
    · simp
    · have := hr c rfl
      simp [List.takeWhile, List.dropWhile, this]
  | cons a l' ih =>
    have ha : p a = true := hl a (by simp)
    have ih' := ih (fun c hc => hl c (by simp [hc]))
    simp [List.takeWhile, List.dropWhile, ha, ih'.1, ih'.2]

/-- Reading back a printed numeral consumes exactly its digits, provided
the remainder does not start with a digit. -/
lemma readNat_natDigits (n : ℕ) (rest : List Char)
    (hrest : ∀ c, rest.head? = some c → c.isDigit = false) :
    readNat (natDigits n ++ rest) = some (n, rest) := by
  have h := takeWhile_append_of_all (natDigits_all_isDigit n) hrest
  unfold readNat takeDigits
  rw [h.1, h.2]
  dsimp only
  rw [if_neg (by simp [natDigits_ne_nil n]), digitsToNat_natDigits]

end Decimal

namespace Phylo2Vec

/-- Error kinds of the phylo2vec core, as named by the specification (§7). -/
inductive P2VError where
  | invalidVector
  | invalidMatrix
  | parseError
  | indexError
  | valueError
  | lookupError
deriving DecidableEq, Repr

/-- A single coordinate check for `check_v`: position `k` must hold an
integral value in `[0, 2k]`.  Coordinates are rationals so that the
"non-integral value" failure mode of the Python/numpy interface is
representable. -/
def coordOk (k : ℕ) (x : ℚ) : Bool :=
  x.den == 1 && decide (0 ≤ x.num) && decide (x.num ≤ 2 * k * x.den)

/-- Modelled from the spec: `check_v` of the core extension
`_phylo2vec_core` (called by `phylo2vec/utils/validation.py`), whose source
is not in the Python tree.  Per §4.1 it fails with `InvalidVectorError` if
the vector is empty, if any `v[k]` lies outside `[0, 2k]`, or if some entry
is non-integral, and returns nothing on success. -/
def check_v (v : List ℚ) : Except P2VError Unit :=
  if v.isEmpty then .error .invalidVector
  else if v.enum.all (fun p => coordOk p.1 p.2) then .ok ()
  else .error .invalidVector

/-- `check_m` from `phylo2vec/utils/validation.py`: validates column 0 with
`check_v`, then requires every entry of the remaining columns to be strictly
positive (the `assert np.all(m[:, 1:] > 0)` line, whose failure the spec
names `InvalidMatrixError`).  A matrix is a list of rows. -/
def check_m (m : List (List ℚ)) : Except P2VError Unit := do
  check_v (m.map (fun row => row.headD 0))
  if m.all (fun row => row.tail.all (fun x => decide (0 < x.num))) then
    pure ()
  else
    .error .invalidMatrix

/-- The range invariant of §3/§8 stated as a proposition: nonempty, and each
coordinate is an integral value in `[0, 2k]`. -/
def ValidQVec (v : List ℚ) : Prop :=
  1 ≤ v.length ∧
    ∀ k, (h : k < v.length) → (v.get ⟨k, h⟩).den = 1 ∧
      0 ≤ v.get ⟨k, h⟩ ∧ v.get ⟨k, h⟩ ≤ ((2 * k : ℕ) : ℚ)

lemma enum_all_iff_get {v : List ℚ} :
    (v.enum.all (fun p => coordOk p.1 p.2) = true) ↔
      ∀ k, (h : k < v.length) → coordOk k (v.get ⟨k, h⟩) = true := by
  rw [List.all_eq_true]
  constructor
  · intro H k h
    refine H (k, v.get ⟨k, h⟩) (List.mem_enum_iff_getElem?.2 ?_)
    simp [List.getElem?_eq_getElem h]
  · rintro H ⟨k, x⟩ hmem
    have hx := List.mem_enum_iff_getElem?.1 hmem
    have hk : k < v.length := by
      by_contra hk
      rw [List.getElem?_eq_none (Nat.le_of_not_lt hk)] at hx
      exact Option.noConfusion hx
    have : v.get ⟨k, hk⟩ = x := by
      rw [List.getElem?_eq_getElem hk] at hx
      exact Option.some_injective _ hx
    exact this ▸ H k hk

lemma coordOk_iff {k : ℕ} {x : ℚ} :
    coordOk k x = true ↔ (x.den = 1 ∧ 0 ≤ x ∧ x ≤ ((2 * k : ℕ) : ℚ)) := by
  have hle : x ≤ ((2 * k : ℕ) : ℚ) ↔ x.num ≤ 2 * k * x.den := by
    rw [Rat.le_def, Rat.num_natCast, Rat.den_natCast]
    push_cast
    omega
  have hnn : (0 : ℚ) ≤ x ↔ 0 ≤ x.num := Rat.num_nonneg.symm
  constructor
  · intro h
    simp only [coordOk, Bool.and_eq_true, beq_iff_eq, decide_eq_true_eq] at h
    exact ⟨h.1.1, hnn.2 h.1.2, hle.2 h.2⟩
  · rintro ⟨h1, h2, h3⟩
    simp only [coordOk, Bool.and_eq_true, beq_iff_eq, decide_eq_true_eq]
    exact ⟨⟨h1, hnn.1 h2⟩, hle.1 h3⟩

/-- Helper: `check_v` succeeds exactly on vectors satisfying the range
invariant, and otherwise reports `InvalidVectorError`. -/
lemma check_v_ok_iff (v : List ℚ) :
    check_v v = .ok () ↔ ValidQVec v := by
  unfold check_v ValidQVec
  rcases v with _ | ⟨a, v'⟩
  · simp
  · simp only [List.isEmpty_cons, Bool.false_eq_true, if_false, List.length_cons]
    constructor
    · intro h
      split at h
      · next hall =>
        refine ⟨by omega, ?_⟩
        intro k hk
        exact coordOk_iff.1 (enum_all_iff_get.1 hall k hk)
      · exact absurd h (by simp)
    · rintro ⟨-, H⟩
      have : (a :: v').enum.all (fun p => coordOk p.1 p.2) = true :=
        enum_all_iff_get.2 (fun k h => coordOk_iff.2 (H k h))
      simp [this]

lemma check_v_error_or (v : List ℚ) :
    check_v v = .ok () ∨ check_v v = .error .invalidVector := by
  unfold check_v
  split
  · exact .inr rfl
  · split
    · exact .inl rfl
    · exact .inr rfl

/-- C1: `check_v` accepts `v` iff `v` is nonempty and every coordinate `k`
holds an integral value in `[0, 2k]`; any rejection is the
`InvalidVectorError` outcome, and acceptance returns nothing (the `Unit`
value). -/
theorem check_v_accepts_iff_range_invariant (v : List ℚ) :
    (check_v v = .ok () ↔
      (1 ≤ v.length ∧
        ∀ k, (h : k < v.length) → (v.get ⟨k, h⟩).den = 1 ∧
          0 ≤ v.get ⟨k, h⟩ ∧ v.get ⟨k, h⟩ ≤ ((2 * k : ℕ) : ℚ))) ∧
    (check_v v = .ok () ∨ check_v v = .error .invalidVector) :=
  ⟨check_v_ok_iff v, check_v_error_or v⟩

instance {ε α : Type} [DecidableEq ε] [DecidableEq α] :
    DecidableEq (Except ε α) := fun a b =>
  match a, b with
  | .error e, .error f => decidable_of_iff (e = f) (by simp)
  | .ok x, .ok y => decidable_of_iff (x = y) (by simp)
  | .error _, .ok _ => isFalse (by simp)
  | .ok _, .error _ => isFalse (by simp)

/-- Column 0 of a row-major matrix, as `check_m` extracts it (`m[:, 0]`). -/
def column0 (m : List (List ℚ)) : List ℚ :=
  m.map (fun row => row.headD 0)

lemma check_m_eq (m : List (List ℚ)) :
    check_m m =
      match check_v (column0 m) with
      | .error e => .error e
      | .ok () =>
          if m.all (fun row => row.tail.all (fun x => decide (0 < x.num))) then
            .ok ()
          else
            .error .invalidMatrix := by
  unfold check_m column0
  cases h : check_v (m.map (fun row => row.headD 0)) with
  | error e => simp [Bind.bind, Except.bind, h]
  | ok u => cases u; simp [Bind.bind, Except.bind, h, pure, Except.pure]

lemma allPos_iff (m : List (List ℚ)) :
    (m.all (fun row => row.tail.all (fun x => decide (0 < x.num))) = true) ↔
      ∀ row ∈ m, ∀ x ∈ row.tail, 0 < x := by
  simp [List.all_eq_true, Rat.num_pos]

/-- C2 counterexample: for `m = [[5, -1]]`, column 0 is `[5]`, which fails
`check_v` (since `5 > 2·0`), so `check_m` reports `InvalidVectorError` —
not `InvalidMatrixError` — even though the remaining column holds the
non-positive entry `-1`. -/
theorem check_m_not_invalidMatrix_on_bad_column0 :
    check_m [[(5 : ℚ), -1]] = .error .invalidVector ∧
      (∃ row ∈ [[(5 : ℚ), -1]], ∃ x ∈ row.tail, ¬ (0 < x)) ∧
      Except.error (α := Unit) P2VError.invalidVector ≠ .error .invalidMatrix := by
  refine ⟨by decide, ⟨[(5 : ℚ), -1], by decide⟩, by decide⟩

/-- C2 (amended): `check_m` validates column 0 with `check_v` first, so an
invalid column 0 yields `InvalidVectorError`; when column 0 is valid,
`check_m` fails with `InvalidMatrixError` iff some entry of the remaining
columns is not strictly positive, and succeeds when all such entries are
strictly positive. -/
theorem check_m_spec (m : List (List ℚ))
    (hrect : ∃ c, 1 ≤ c ∧ ∀ row ∈ m, row.length = c) :
    (check_v (column0 m) ≠ .ok () → check_m m = .error .invalidVector) ∧
    (check_v (column0 m) = .ok () →
      (check_m m = .error .invalidMatrix ↔
        ∃ row ∈ m, ∃ x ∈ row.tail, ¬ (0 < x))) ∧
    (check_v (column0 m) = .ok () → (∀ row ∈ m, ∀ x ∈ row.tail, 0 < x) →
      check_m m = .ok ()) := by
  clear hrect
  rw [check_m_eq]
  refine ⟨?_, ?_, ?_⟩
  · intro hne
    rcases check_v_error_or (column0 m) with h | h
    · exact absurd h hne
    · simp [h]
  · intro hok
    rw [hok]
    by_cases hall : m.all (fun row => row.tail.all (fun x => decide (0 < x.num))) = true
    · simp only [hall, if_true]
      constructor
      · intro h; exact absurd h (by simp)
      · rintro ⟨row, hrow, x, hx, hpos⟩
        exact absurd (allPos_iff m |>.1 hall row hrow x hx) hpos
    · simp only [hall, if_false]
      constructor
      · intro _
        by_contra hcontra
        push_neg at hcontra
        exact hall (allPos_iff m |>.2 fun row hrow x hx => hcontra row hrow x hx)
      · intro _; rfl
  · intro hok hpos
    rw [hok, if_pos (allPos_iff m |>.2 hpos)]

/-- C2 witness: a concrete run through `check_m_spec` at `m = [[0, 1]]`. -/
theorem check_m_spec_witness : check_m [[(0 : ℚ), 1]] = .ok () :=
  (check_m_spec [[(0 : ℚ), 1]] ⟨2, by omega, by decide⟩).2.2 (by decide)
    (by decide)

/-- C9: a single-column matrix whose column 0 passes `check_v` passes
`check_m`: the strict-positivity check ranges over no entries at all. -/
theorem check_m_single_column (m : List (List ℚ))
    (hone : ∀ row ∈ m, row.length = 1)
    (hok : check_v (column0 m) = .ok ()) :
    check_m m = .ok () := by
  rw [check_m_eq, hok, if_pos]
  refine allPos_iff m |>.2 ?_
  intro row hrow x hx
  rcases row with _ | ⟨a, rest⟩
  · simp at hx
  · have := hone _ hrow
    simp at this
    subst this
    simp at hx

/-- C9 witness: `check_m` accepts the one-column matrix `[[0]]`. -/
theorem check_m_single_column_witness : check_m [[(0 : ℚ)]] = .ok () :=
  check_m_single_column [[(0 : ℚ)]] (by decide) (by decide)

/-!  ## The vector/Newick codec

Modelled from the spec: `encode`/`decode` live in the compiled
`_phylo2vec_core` extension, whose sources are not in the Python tree.
Per §4.2 and §9, `encode` iterates `k = 0..n-2`, inserting leaf `k+1` at
the attachment point coordinate `v[k]` identifies inside the tree already
built from leaves `0..k` (a tree on `k+1` leaves has `2k+1` nodes, matching
the coordinate range `[0, 2k]`), assigning each new internal node the next
unused id starting at `n`, and prints the Newick string with a trailing
`;`.  `decode` parses the Newick grammar of §3 and derives the unique
vector that records, for each leaf `k+1` from the last down, where it was
attached.  §9 leaves the tie-break rule of "attachment point" open but
demands one fixed canonical rule used consistently on both sides; here the
attachment points of a tree are its subtrees in depth-first preorder, and
the inserted leaf becomes the right sibling of the chosen subtree. -/

/-- A rooted binary tree with integer leaf labels and integer internal-node
ids, the intermediate structure of §9 (leaves `0..n-1`, internals
`n..2n-2`). -/
inductive PTree where
  | leaf (x : ℕ)
  | node (nid : ℕ) (l : PTree) (r : PTree)
deriving DecidableEq, Repr

namespace PTree

/-- Number of nodes (leaves and internal nodes). -/
def size : PTree → ℕ
  | .leaf _ => 1
  | .node _ l r => 1 + size l + size r

/-- Number of leaves. -/
def countLeaves : PTree → ℕ
  | .leaf _ => 1
  | .node _ l r => countLeaves l + countLeaves r

/-- Leaf labels in left-to-right order. -/
def leafList : PTree → List ℕ
  | .leaf x => [x]
  | .node _ l r => leafList l ++ leafList r

/-- Attach leaf `x` as the right sibling of the subtree at preorder
position `p`, the new internal node taking id `nid`.  Position `0` is the
whole tree; positions `1..size l` lie in the left child; the rest lie in
the right child. -/
def insertAt : PTree → ℕ → ℕ → ℕ → PTree
  | .leaf y, _, x, nid => .node nid (.leaf y) (.leaf x)
  | .node m l r, p, x, nid =>
      if p = 0 then .node nid (.node m l r) (.leaf x)
      else if p ≤ size l then .node m (insertAt l (p - 1) x nid) r
      else .node m l (insertAt r (p - 1 - size l) x nid)

/-- Invert `insertAt`: locate leaf `x` (always a right child), return the
preorder position its parent's subtree occupied before the insertion and
the tree with `x` removed. -/
def extract (x : ℕ) : PTree → Option (ℕ × PTree)
  | .leaf _ => none
  | .node m l r =>
      if r = .leaf x then some (0, l)
      else
        match extract x l with
        | some (p, l') => some (p + 1, .node m l' r)
        | none =>
            match extract x r with
            | some (p, r') => some (p + 1 + size l, .node m l r')
            | none => none

end PTree

/-- Build the tree of a vector, starting from leaf `0` and inserting leaf
`j` at position `w[j-1]`; `n` is the final leaf count, so the internal node
created when inserting leaf `j` receives id `n + j - 1`. -/
def buildAux (n : ℕ) : PTree → ℕ → List ℕ → PTree
  | t, _, [] => t
  | t, j, a :: rest => buildAux n (PTree.insertAt t a j (n + j - 1)) (j + 1) rest

/-- The tree a Phylo2Vec vector encodes (§4.2). -/
def build (v : List ℕ) : PTree := buildAux (v.length + 1) (.leaf 0) 1 v

/-- Recover the vector from a tree by repeatedly extracting the
highest-numbered leaf: `m` is the largest leaf label expected. -/
def devectorAux : PTree → ℕ → Option (List ℕ)
  | t, 0 => if t = .leaf 0 then some [] else none
  | t, m + 1 =>
      match PTree.extract (m + 1) t with
      | some (p, t') => (devectorAux t' m).map (fun v => v ++ [p])
      | none => none

/-- The unique vector whose construction order yields `t` (§4.2). -/
def devector (t : PTree) : Option (List ℕ) :=
  devectorAux t (t.countLeaves - 1)

namespace PTree

lemma size_insertAt (t : PTree) (p x nid : ℕ) :
    (insertAt t p x nid).size = t.size + 2 := by
  induction t generalizing p with
  | leaf y => simp [insertAt, size]
  | node m l r ihl ihr =>
    unfold insertAt
    split
    · simp [size]; omega
    · split
      · simp [size, ihl]; omega
      · simp [size, ihr]; omega

lemma countLeaves_insertAt (t : PTree) (p x nid : ℕ) :
    (insertAt t p x nid).countLeaves = t.countLeaves + 1 := by
  induction t generalizing p with
  | leaf y => simp [insertAt, countLeaves]
  | node m l r ihl ihr =>
    unfold insertAt
    split
    · simp [countLeaves]
    · split
      · simp only [countLeaves, ihl]; omega
      · simp only [countLeaves, ihr]; omega

lemma size_eq_two_mul_countLeaves_sub_one (t : PTree) :
    t.size + 1 = 2 * t.countLeaves := by
  induction t with
  | leaf y => simp [size, countLeaves]
  | node m l r ihl ihr =>
    simp only [size, countLeaves]
    omega

lemma mem_leafList_insertAt {y : ℕ} (t : PTree) (p x nid : ℕ) :
    y ∈ (insertAt t p x nid).leafList ↔ y ∈ t.leafList ∨ y = x := by
  induction t generalizing p with
  | leaf z =>
    simp [insertAt, leafList]
  | node m l r ihl ihr =>
    unfold insertAt
    split
    · simp [leafList]
      tauto
    · split
      · simp [leafList, ihl]
        tauto
      · simp [leafList, ihr]
        tauto

lemma extract_of_not_mem {x : ℕ} {t : PTree} (h : x ∉ t.leafList) :
    extract x t = none := by
  induction t with
  | leaf y => simp [extract]
  | node m l r ihl ihr =>
    simp only [leafList, List.mem_append, not_or] at h
    have hr : r ≠ .leaf x := by
      intro hcontra
      subst hcontra
      simp [leafList] at h
    rw [extract, if_neg hr, ihl h.1, ihr h.2]

lemma insertAt_ne_leaf (t : PTree) (p x nid z : ℕ) :
    insertAt t p x nid ≠ .leaf z := by
  cases t with
  | leaf y => simp [insertAt]
  | node m l r =>
    rw [insertAt]
    split
    · simp
    · split <;> simp

/-- Extracting the leaf just inserted recovers the position and the
original tree. -/
lemma extract_insertAt {x : ℕ} (t : PTree) (p nid : ℕ)
    (hx : x ∉ t.leafList) (hp : p < t.size) :
    extract x (insertAt t p x nid) = some (p, t) := by
  induction t generalizing p with
  | leaf y =>
    have : p = 0 := by simp [size] at hp; omega
    subst this
    simp [insertAt, extract]
  | node m l r ihl ihr =>
    simp only [leafList, List.mem_append, not_or] at hx
    have hrne : r ≠ .leaf x := by
      intro hcontra; subst hcontra; simp [leafList] at hx
    have hsz : p < 1 + l.size + r.size := by simpa [size] using hp
    rw [insertAt]
    split
    · next h0 =>
      subst h0
      rw [extract, if_pos rfl]
    · next h0 =>
      split
      · next hle =>
        rw [extract, if_neg hrne, ihl _ hx.1 (by omega)]
        simp only [Option.some.injEq, Prod.mk.injEq]
        exact ⟨by omega, trivial⟩
      · next hgt =>
        rw [extract, if_neg (by apply insertAt_ne_leaf),
          extract_of_not_mem hx.1,
          ihr _ hx.2 (by omega)]
        simp only [Option.some.injEq, Prod.mk.injEq]
        exact ⟨by omega, trivial⟩

end PTree

lemma countLeaves_buildAux (n : ℕ) (w : List ℕ) :
    ∀ (t : PTree) (j : ℕ),
      (buildAux n t j w).countLeaves = t.countLeaves + w.length := by
  induction w with
  | nil => intro t j; simp [buildAux]
  | cons a rest ih =>
    intro t j
    rw [buildAux, ih, PTree.countLeaves_insertAt]
    simp
    omega

lemma countLeaves_build (v : List ℕ) :
    (build v).countLeaves = v.length + 1 := by
  rw [build, countLeaves_buildAux]
  simp [PTree.countLeaves]
  omega

/-- Peeling the leaves `j, j+1, ...` added by `buildAux` recovers, one
coordinate at a time, exactly the list that drove the construction. -/
lemma devectorAux_buildAux (n : ℕ) :
    ∀ (w : List ℕ) (t : PTree) (j : ℕ),
      1 ≤ j →
      (∀ y ∈ t.leafList, y < j) →
      t.countLeaves = j →
      (∀ i, (h : i < w.length) → w.get ⟨i, h⟩ ≤ 2 * (j - 1 + i)) →
      devectorAux (buildAux n t j w) (j - 1 + w.length) =
        (devectorAux t (j - 1)).map (fun u => u ++ w) := by
  intro w
  induction w with
  | nil =>
    intro t j hj hlt hcl hb
    simp only [buildAux, List.length_nil, Nat.add_zero]
    cases devectorAux t (j - 1) <;> simp
  | cons a rest ih =>
    intro t j hj hlt hcl hb
    rcases Nat.exists_eq_succ_of_ne_zero (by omega : j ≠ 0) with ⟨j', rfl⟩
    simp only [Nat.succ_eq_add_one] at *
    rw [buildAux]
    have hsize : t.size + 1 = 2 * (j' + 1) := by
      have := PTree.size_eq_two_mul_countLeaves_sub_one t
      omega
    have ha : a ≤ 2 * j' := by
      have := hb 0 (by simp)
      simpa using this
    have hx : (j' + 1 : ℕ) ∉ t.leafList := fun hmem => by
      have := hlt _ hmem; omega
    have hext := PTree.extract_insertAt t a (n + (j' + 1) - 1) hx (by omega)
    have ihapp := ih (PTree.insertAt t a (j' + 1) (n + (j' + 1) - 1)) (j' + 2)
      (by omega)
      (fun y hy => by
        rcases (PTree.mem_leafList_insertAt t a (j' + 1) _).1 hy with h | h
        · have := hlt y h; omega
        · omega)
      (by rw [PTree.countLeaves_insertAt, hcl])
      (fun i h => by
        have := hb (i + 1) (by simpa using Nat.succ_lt_succ h)
        simp only [List.get_cons_succ] at this
        have harith : j' + 1 - 1 + (i + 1) = j' + 2 - 1 + i := by omega
        rw [harith] at this
        exact this)
    have hidx : j' + 1 - 1 + (a :: rest).length = j' + 2 - 1 + rest.length := by
      simp only [List.length_cons]
      omega
    rw [hidx, ihapp]
    have h21 : j' + 2 - 1 = j' + 1 := by omega
    have h11 : j' + 1 - 1 = j' := by omega
    rw [h21, h11]
    have hdev : devectorAux (PTree.insertAt t a (j' + 1) (n + (j' + 1) - 1))
        (j' + 1) = (devectorAux t j').map (fun u => u ++ [a]) := by
      rw [devectorAux, hext]
    rw [hdev]
    cases devectorAux t j' <;> simp

/-- Tree-level round trip: rebuilding from a range-valid vector and reading
the vector back is the identity. -/
lemma devector_build (v : List ℕ)
    (hb : ∀ i, (h : i < v.length) → v.get ⟨i, h⟩ ≤ 2 * i) :
    devector (build v) = some v := by
  rw [devector, countLeaves_build]
  simp only [Nat.add_sub_cancel]
  have h := devectorAux_buildAux (v.length + 1) v (.leaf 0) 1 (le_refl 1)
    (by intro y hy; simp [PTree.leafList] at hy; omega)
    (by simp [PTree.countLeaves])
    (by intro i hi; simpa using hb i hi)
  simp only [Nat.sub_self, Nat.zero_add] at h
  rw [build, h]
  simp [devectorAux]

/-- Print a tree in the Newick style of §3: leaves as decimal labels,
internal nodes as `(<left>,<right>)<id>`. -/
def printTree : PTree → List Char
  | .leaf x => Decimal.natDigits x
  | .node m l r =>
      '(' :: printTree l ++ ',' :: printTree r ++ ')' :: Decimal.natDigits m

/-- Modelled from the spec: `encode` of the core (§4.2) — build the tree of
`v` and emit its Newick string with the trailing `;`. -/
def encode (v : List ℕ) : String :=
  ⟨printTree (build v) ++ [';']⟩

/-- Height of a tree, a fuel bound for the parser. -/
def depth : PTree → ℕ
  | .leaf _ => 1
  | .node _ l r => 1 + max (depth l) (depth r)

/-- Recursive-descent parser for the Newick grammar of §3
(`subtree := leaf | "(" subtree "," subtree ")" label?` with decimal
labels); returns the parsed subtree and the unconsumed input. -/
def parseTree (fuel : ℕ) (cs : List Char) : Option (PTree × List Char) :=
  match fuel with
  | 0 => none
  | fuel + 1 =>
    match cs with
    | [] => none
    | c :: rest =>
      if c = '(' then
        match parseTree fuel rest with
        | some (l, r1) =>
          match r1 with
          | c1 :: r2 =>
            if c1 = ',' then
              match parseTree fuel r2 with
              | some (r, r3) =>
                match r3 with
                | c2 :: r4 =>
                  if c2 = ')' then
                    match Decimal.readNat r4 with
                    | some (m, r5) => some (.node m l r, r5)
                    | none => some (.node 0 l r, r4)
                  else none
                | [] => none
              | none => none
            else none
          | [] => none
        | none => none
      else
        match Decimal.readNat (c :: rest) with
        | some (x, rest') => some (.leaf x, rest')
        | none => none

/-- Modelled from the spec: `decode` of the core (§4.2) — parse the Newick
grammar and derive the unique vector of the parsed topology; `ParseError`
on grammar violations. -/
def decode (s : String) : Except P2VError (List ℕ) :=
  let cs := s.toList
  match parseTree (cs.length + 1) cs with
  | some (t, rest) =>
      if rest = [';'] then
        match devector t with
        | some v => .ok v
        | none => .error .parseError
      else .error .parseError
  | none => .error .parseError

lemma depth_le_length_printTree (t : PTree) :
    depth t ≤ (printTree t).length := by
  induction t with
  | leaf x =>
    have := Decimal.natDigits_ne_nil x
    cases h : Decimal.natDigits x with
    | nil => exact absurd h this
    | cons c cs => simp [depth, printTree, h]
  | node m l r ihl ihr =>
    simp only [depth, printTree, List.length_cons, List.length_append]
    have : max (depth l) (depth r) ≤ max (printTree l).length (printTree r).length :=
      max_le_max ihl ihr
    omega

/-- The parser consumes exactly a printed tree, with any remainder that
does not look like more tree text left untouched. -/
lemma parseTree_printTree (t : PTree) :
    ∀ (fuel : ℕ) (rest : List Char), depth t < fuel →
      (∀ c, rest.head? = some c → c.isDigit = false) →
      parseTree fuel (printTree t ++ rest) = some (t, rest) := by
  induction t with
  | leaf x =>
    intro fuel rest hfuel hrest
    rcases Nat.exists_eq_succ_of_ne_zero (by omega : fuel ≠ 0) with ⟨f, rfl⟩
    rcases hd : Decimal.natDigits x with _ | ⟨c, ds⟩
    · exact absurd hd (Decimal.natDigits_ne_nil x)
    · have hcdig : c.isDigit = true := by
        exact Decimal.natDigits_all_isDigit x c (by rw [hd]; simp)
      have hcne : ¬ c = '(' := by
        intro hcontra; subst hcontra; exact Bool.noConfusion hcdig
      have hread : Decimal.readNat (Decimal.natDigits x ++ rest) =
          some (x, rest) := Decimal.readNat_natDigits x rest hrest
      rw [hd] at hread
      simp only [List.cons_append] at hread
      simp only [printTree, hd, List.cons_append]
      rw [parseTree, if_neg hcne, hread]
  | node m l r ihl ihr =>
    intro fuel rest hfuel hrest
    rcases Nat.exists_eq_succ_of_ne_zero (by omega : fuel ≠ 0) with ⟨f, rfl⟩
    simp only [Nat.succ_eq_add_one] at *
    simp only [depth] at hfuel
    have hl : parseTree f
        (printTree l ++ (',' :: (printTree r ++ (')' :: (Decimal.natDigits m ++ rest))))) =
        some (l, ',' :: (printTree r ++ (')' :: (Decimal.natDigits m ++ rest)))) :=
      ihl f _ (by omega) (by intro c hc; simp at hc; subst hc; decide)
    have hr : parseTree f
        (printTree r ++ (')' :: (Decimal.natDigits m ++ rest))) =
        some (r, ')' :: (Decimal.natDigits m ++ rest)) :=
      ihr f _ (by omega) (by intro c hc; simp at hc; subst hc; decide)
    have hread : Decimal.readNat (Decimal.natDigits m ++ rest) =
        some (m, rest) := Decimal.readNat_natDigits m rest hrest
    have hshape : printTree (PTree.node m l r) ++ rest =
        '(' :: (printTree l ++
          (',' :: (printTree r ++ (')' :: (Decimal.natDigits m ++ rest))))) := by
      simp [printTree]
    rw [hshape, parseTree, if_pos rfl, hl]
    dsimp only
    rw [if_pos rfl, hr]
    dsimp only
    rw [if_pos rfl, hread]

lemma valid_nat_vec_of_check_v {v : List ℕ}
    (hv : check_v (v.map (fun (a : ℕ) => (a : ℚ))) = .ok ()) :
    1 ≤ v.length ∧ ∀ i, (h : i < v.length) → v.get ⟨i, h⟩ ≤ 2 * i := by
  obtain ⟨hlen, hco⟩ := (check_v_ok_iff _).1 hv
  simp only [List.length_map] at hlen hco
  refine ⟨hlen, fun i hi => ?_⟩
  obtain ⟨-, -, hle⟩ := hco i hi
  rw [List.get_map] at hle
  exact_mod_cast hle

/-- C3: for every vector accepted by `check_v`, decoding the Newick string
`encode` produces returns exactly the original vector. -/
theorem decode_encode (v : List ℕ)
    (hv : check_v (v.map (fun (a : ℕ) => (a : ℚ))) = .ok ()) :
    decode (encode v) = .ok v := by
  obtain ⟨hlen, hb⟩ := valid_nat_vec_of_check_v hv
  show decode ⟨printTree (build v) ++ [';']⟩ = .ok v
  unfold decode
  have hcs : (String.mk (printTree (build v) ++ [';'])).toList =
      printTree (build v) ++ [';'] := rfl
  rw [hcs]
  dsimp only
  have hparse := parseTree_printTree (build v)
    ((printTree (build v) ++ [';']).length + 1) [';']
    (by
      have := depth_le_length_printTree (build v)
      simp only [List.length_append, List.length_cons, List.length_nil]
      omega)
    (by intro c hc; simp at hc; subst hc; decide)
  rw [hparse]
  dsimp only
  rw [if_pos rfl, devector_build v hb]

/-- C3 witness: the valid vector `[0, 2]` survives the encode/decode round
trip. -/
theorem decode_encode_witness :
    check_v (([0, 2] : List ℕ).map (fun (a : ℕ) => (a : ℚ))) = .ok () ∧
      decode (encode [0, 2]) = .ok [0, 2] :=
  ⟨by decide, decode_encode [0, 2] (by decide)⟩

/-!  ## The vector sampler

Modelled from the spec: `sample_vector` of the core (§4.4) draws,
independently for each `k = 0..n-2`, a uniform integer in `[0, 2k]` and
concatenates the draws.  The random source is modelled as a stream of
naturals `rng : ℕ → ℕ` (one independent raw draw per coordinate); the
uniform draw in `[0, 2k]` reduces the raw draw modulo `2k + 1`, a map under
which every value of `[0, 2k]` has exactly one preimage per period. -/
def sample_vector (n : ℕ) (rng : ℕ → ℕ) : List ℕ :=
  (List.range (n - 1)).map (fun k => rng k % (2 * k + 1))

/-- C5: for `n ≥ 2` and any seed stream, `sample_vector n rng` has `n - 1`
coordinates; the whole vector passes `check_v`; coordinate `k` is a
function of the independent `k`-th draw alone, reduced into `[0, 2k]`; and
that reduction is uniform — each target value in `[0, 2k]` has exactly one
preimage among a full period of raw draws. -/
theorem sample_vector_spec (n : ℕ) (rng : ℕ → ℕ) (hn : 2 ≤ n) :
    (sample_vector n rng).length = n - 1 ∧
    check_v ((sample_vector n rng).map (fun (a : ℕ) => (a : ℚ))) = .ok () ∧
    (∀ k, k < n - 1 → (sample_vector n rng)[k]? = some (rng k % (2 * k + 1))) ∧
    (∀ k t, t ≤ 2 * k →
      ((Finset.range (2 * k + 1)).filter
        (fun x => x % (2 * k + 1) = t)).card = 1) := by
  have hlen : (sample_vector n rng).length = n - 1 := by
    simp [sample_vector]
  refine ⟨hlen, ?_, ?_, ?_⟩
  · refine (check_v_ok_iff _).2 ⟨by simp [sample_vector]; omega, ?_⟩
    intro k hk
    simp only [List.length_map] at hk
    rw [List.get_map]
    have hget : (sample_vector n rng).get ⟨k, hk⟩ = rng k % (2 * k + 1) := by
      simp [sample_vector]
    rw [hget]
    refine ⟨Rat.den_natCast _, by positivity, ?_⟩
    have : rng k % (2 * k + 1) ≤ 2 * k :=
      Nat.lt_succ_iff.1 (Nat.mod_lt _ (by omega))
    exact_mod_cast this
  · intro k hk
    have hk' : k < (sample_vector n rng).length := by omega
    rw [List.getElem?_eq_getElem hk']
    simp [sample_vector]
  · intro k t ht
    have : (Finset.range (2 * k + 1)).filter
        (fun x => x % (2 * k + 1) = t) = {t} := by
      ext x
      simp only [Finset.mem_filter, Finset.mem_range, Finset.mem_singleton]
      constructor
      · rintro ⟨hx, hmod⟩
        rw [Nat.mod_eq_of_lt hx] at hmod
        exact hmod
      · rintro rfl
        exact ⟨by omega, Nat.mod_eq_of_lt (by omega)⟩
    rw [this, Finset.card_singleton]

/-- C5 witness: a concrete instantiation of `sample_vector_spec` — the
vector sampled at `n = 3` from the constant raw stream `5` passes
`check_v`. -/
theorem sample_vector_spec_witness :
    check_v ((sample_vector 3 (fun _ => 5)).map (fun (a : ℕ) => (a : ℚ))) =
      .ok () :=
  (sample_vector_spec 3 (fun _ => 5) (by omega)).2.1

/-!  ## Common-ancestor queries

Modelled from the spec: `get_common_ancestor` of the core (§4.5)
reconstructs the ancestor chains of leaves `i` and `j` from the
construction implied by `v` and returns the id of the first node the two
chains share — the lowest common ancestor — or the leaf id itself when
`i = j`; an index outside `[0, n-1]` is an `IndexError`. -/

namespace PTree

/-- Every node id of a tree: leaf labels and internal ids. -/
def allIds : PTree → List ℕ
  | .leaf x => [x]
  | .node m l r => m :: (allIds l ++ allIds r)

lemma mem_allIds_insertAt {y : ℕ} (t : PTree) (p x nid : ℕ) :
    y ∈ (insertAt t p x nid).allIds ↔ y ∈ t.allIds ∨ y = x ∨ y = nid := by
  induction t generalizing p with
  | leaf z =>
    simp [insertAt, allIds]
    tauto
  | node m l r ihl ihr =>
    rw [insertAt]
    split
    · simp [allIds]
      tauto
    · split
      · simp [allIds, ihl]
        tauto
      · simp [allIds, ihr]
        tauto

lemma nodup_allIds_insertAt {t : PTree} {p x nid : ℕ}
    (hx : x ∉ t.allIds) (hnid : nid ∉ t.allIds) (hxn : x ≠ nid)
    (hnd : t.allIds.Nodup) : (insertAt t p x nid).allIds.Nodup := by
  induction t generalizing p with
  | leaf z =>
    simp only [allIds, List.mem_singleton] at hx hnid
    simp only [insertAt, allIds]
    simp [List.nodup_cons]
    omega
  | node m l r ihl ihr =>
    have hx' := hx
    have hnid' := hnid
    simp only [allIds, List.mem_cons, List.mem_append, not_or] at hx' hnid'
    obtain ⟨hxm, hxl, hxr⟩ := hx'
    obtain ⟨hnm, hnl, hnr⟩ := hnid'
    have hnd' := hnd
    rw [allIds, List.nodup_cons, List.nodup_append] at hnd'
    obtain ⟨hmnotin, hndl, hndr, hdisj⟩ := hnd'
    have hml : m ∉ l.allIds := fun h => hmnotin (List.mem_append.2 (.inl h))
    have hmr : m ∉ r.allIds := fun h => hmnotin (List.mem_append.2 (.inr h))
    rw [insertAt]
    split
    · rw [allIds, List.nodup_cons, List.nodup_append]
      refine ⟨?_, hnd, by simp [allIds], ?_⟩
      · intro hmem
        rcases List.mem_append.1 hmem with h | h
        · exact hnid h
        · simp only [allIds, List.mem_singleton] at h
          exact hxn h.symm
      · intro a ha hax
        simp only [allIds, List.mem_singleton] at hax
        subst hax
        exact hx ha
    · split
      · rw [allIds, List.nodup_cons, List.nodup_append]
        refine ⟨?_, ihl hxl hnl hndl, hndr, ?_⟩
        · intro hmem
          rcases List.mem_append.1 hmem with h | h
          · rw [mem_allIds_insertAt] at h
            rcases h with h | rfl | rfl
            · exact hml h
            · exact hxm rfl
            · exact hnm rfl
          · exact hmr h
        · intro a ha har
          rw [mem_allIds_insertAt] at ha
          rcases ha with ha | rfl | rfl
          · exact hdisj ha har
          · exact hxr har
          · exact hnr har
      · rw [allIds, List.nodup_cons, List.nodup_append]
        refine ⟨?_, hndl, ihr hxr hnr hndr, ?_⟩
        · intro hmem
          rcases List.mem_append.1 hmem with h | h
          · exact hml h
          · rw [mem_allIds_insertAt] at h
            rcases h with h | rfl | rfl
            · exact hmr h
            · exact hxm rfl
            · exact hnm rfl
        · intro a ha har
          rw [mem_allIds_insertAt] at har
          rcases har with har | rfl | rfl
          · exact hdisj ha har
          · exact hxl ha
          · exact hnl ha

end PTree

lemma nodup_allIds_buildAux (n : ℕ) :
    ∀ (w : List ℕ) (t : PTree) (j : ℕ),
      1 ≤ j → n = j + w.length →
      t.allIds.Nodup →
      (∀ y ∈ t.allIds, y < j ∨ (n ≤ y ∧ y < n + j - 1)) →
      (buildAux n t j w).allIds.Nodup := by
  intro w
  induction w with
  | nil => intro t j hj hn hnd hb; simpa [buildAux] using hnd
  | cons a rest ih =>
    intro t j hj hn hnd hb
    simp only [List.length_cons] at hn
    rw [buildAux]
    refine ih _ (j + 1) (by omega) (by omega) ?_ ?_
    · refine PTree.nodup_allIds_insertAt ?_ ?_ (by omega) hnd
      · intro hmem
        rcases hb j hmem with h | h <;> omega
      · intro hmem
        rcases hb (n + j - 1) hmem with h | h <;> omega
    · intro y hy
      rw [PTree.mem_allIds_insertAt] at hy
      rcases hy with hy | rfl | rfl
      · rcases hb y hy with h | h <;> omega
      · omega
      · omega

lemma nodup_allIds_build (v : List ℕ) : (build v).allIds.Nodup := by
  refine nodup_allIds_buildAux (v.length + 1) v (.leaf 0) 1 (le_refl 1)
    (by omega) (by simp [PTree.allIds]) ?_
  intro y hy
  simp [PTree.allIds] at hy
  omega

lemma mem_leafList_buildAux (n : ℕ) :
    ∀ (w : List ℕ) (t : PTree) (j y : ℕ),
      y ∈ (buildAux n t j w).leafList ↔
        y ∈ t.leafList ∨ (j ≤ y ∧ y < j + w.length) := by
  intro w
  induction w with
  | nil =>
    intro t j y
    simp only [buildAux, List.length_nil, Nat.add_zero]
    constructor
    · exact fun h => .inl h
    · rintro (h | h)
      · exact h
      · omega
  | cons a rest ih =>
    intro t j y
    rw [buildAux, ih, PTree.mem_leafList_insertAt]
    simp only [List.length_cons]
    constructor
    · rintro ((h | rfl) | h)
      · exact .inl h
      · right; omega
      · right; omega
    · rintro (h | h)
      · exact .inl (.inl h)
      · by_cases hy : y = j
        · exact .inl (.inr hy)
        · right; omega

lemma mem_leafList_build (v : List ℕ) (y : ℕ) :
    y ∈ (build v).leafList ↔ y < v.length + 1 := by
  rw [build, mem_leafList_buildAux]
  simp [PTree.leafList]
  omega

namespace PTree

/-- Root-to-leaf path of node ids ending at leaf `x`, if `x` is a leaf of
the tree. -/
def pathTo (x : ℕ) : PTree → Option (List ℕ)
  | .leaf y => if x = y then some [y] else none
  | .node m l r =>
      match pathTo x l with
      | some p => some (m :: p)
      | none =>
          match pathTo x r with
          | some p => some (m :: p)
          | none => none

/-- Ancestor chain of leaf `x`: the leaf first, then its ancestors up to
the root. -/
def chain (t : PTree) (x : ℕ) : List ℕ :=
  ((pathTo x t).getD []).reverse

lemma pathTo_of_mem {x : ℕ} {t : PTree} (h : x ∈ t.leafList) :
    ∃ p, pathTo x t = some p := by
  induction t with
  | leaf y =>
    simp only [leafList, List.mem_singleton] at h
    exact ⟨[y], by simp [pathTo, h]⟩
  | node m l r ihl ihr =>
    rw [leafList, List.mem_append] at h
    rcases h with h | h
    · obtain ⟨p, hp⟩ := ihl h
      exact ⟨m :: p, by rw [pathTo, hp]⟩
    · obtain ⟨p, hp⟩ := ihr h
      cases hl : pathTo x l with
      | some q => exact ⟨m :: q, by rw [pathTo, hl]⟩
      | none => exact ⟨m :: p, by rw [pathTo, hl, hp]⟩

lemma pathTo_subset_allIds {x : ℕ} {t : PTree} {p : List ℕ}
    (h : pathTo x t = some p) : ∀ a ∈ p, a ∈ t.allIds := by
  induction t generalizing p with
  | leaf y =>
    rw [pathTo] at h
    split at h
    · cases h
      simpa [allIds] using fun a ha => ha
    · exact absurd h (by simp)
  | node m l r ihl ihr =>
    rw [pathTo] at h
    intro a ha
    rcases hl : pathTo x l with _ | q
    · rw [hl] at h
      rcases hr : pathTo x r with _ | q'
      · rw [hr] at h
        exact absurd h (by simp)
      · rw [hr] at h
        cases h
        rcases List.mem_cons.1 ha with rfl | ha'
        · simp [allIds]
        · simp only [allIds, List.mem_cons, List.mem_append]
          exact .inr (.inr (ihr hr a ha'))
    · rw [hl] at h
      cases h
      rcases List.mem_cons.1 ha with rfl | ha'
      · simp [allIds]
      · simp only [allIds, List.mem_cons, List.mem_append]
        exact .inr (.inl (ihl hl a ha'))

lemma pathTo_eq_concat {x : ℕ} {t : PTree} {p : List ℕ}
    (h : pathTo x t = some p) : ∃ q, p = q ++ [x] := by
  induction t generalizing p with
  | leaf y =>
    rw [pathTo] at h
    split at h
    · next hxy =>
      cases h
      exact ⟨[], by simp [hxy]⟩
    · exact absurd h (by simp)
  | node m l r ihl ihr =>
    rw [pathTo] at h
    rcases hl : pathTo x l with _ | q
    · rw [hl] at h
      rcases hr : pathTo x r with _ | q'
      · rw [hr] at h
        exact absurd h (by simp)
      · rw [hr] at h
        cases h
        obtain ⟨s, rfl⟩ := ihr hr
        exact ⟨m :: s, rfl⟩
    · rw [hl] at h
      cases h
      obtain ⟨s, rfl⟩ := ihl hl
      exact ⟨m :: s, rfl⟩

/-- Two root-to-leaf paths in a tree with distinct node ids split into a
shared nonempty prefix and tails that avoid each other's path
entirely. -/
lemma pathTo_shared_stem {t : PTree} (hnd : t.allIds.Nodup)
    {x y : ℕ} {px py : List ℕ}
    (hx : pathTo x t = some px) (hy : pathTo y t = some py) :
    ∃ c qx qy, px = c ++ qx ∧ py = c ++ qy ∧ c ≠ [] ∧
      (∀ a ∈ qx, a ∉ py) ∧ (∀ a ∈ qy, a ∉ px) := by
  induction t generalizing px py with
  | leaf z =>
    rw [pathTo] at hx hy
    split at hx
    · cases hx
      split at hy
      · cases hy
        exact ⟨[z], [], [], by simp, by simp, by simp, by simp, by simp⟩
      · exact absurd hy (by simp)
    · exact absurd hx (by simp)
  | node m l r ihl ihr =>
    have hnd' := hnd
    rw [allIds, List.nodup_cons, List.nodup_append] at hnd'
    obtain ⟨hmnotin, hndl, hndr, hdisj⟩ := hnd'
    have hml : m ∉ l.allIds := fun h => hmnotin (List.mem_append.2 (.inl h))
    have hmr : m ∉ r.allIds := fun h => hmnotin (List.mem_append.2 (.inr h))
    rw [pathTo] at hx hy
    rcases hxl : pathTo x l with _ | plx <;> rw [hxl] at hx
    · rcases hxr : pathTo x r with _ | prx <;> rw [hxr] at hx
      · exact absurd hx (by simp)
      · cases hx
        rcases hyl : pathTo y l with _ | ply <;> rw [hyl] at hy
        · rcases hyr : pathTo y r with _ | pry <;> rw [hyr] at hy
          · exact absurd hy (by simp)
          · -- both in the right subtree
            cases hy
            obtain ⟨c, qx, qy, hcx, hcy, hc, hqx, hqy⟩ := ihr hndr hxr hyr
            refine ⟨m :: c, qx, qy, by simp [hcx], by simp [hcy], by simp, ?_, ?_⟩
            · intro a ha
              have hamem : a ∈ r.allIds :=
                pathTo_subset_allIds hxr a (by rw [hcx]; exact List.mem_append_right _ ha)
              simp only [List.mem_cons, not_or]
              exact ⟨fun hcontra => hmr (hcontra ▸ hamem), hqx a ha⟩
            · intro a ha
              have hamem : a ∈ r.allIds :=
                pathTo_subset_allIds hyr a (by rw [hcy]; exact List.mem_append_right _ ha)
              simp only [List.mem_cons, not_or]
              exact ⟨fun hcontra => hmr (hcontra ▸ hamem), hqy a ha⟩
        · -- x right, y left
          cases hy
          refine ⟨[m], prx, ply, rfl, rfl, by simp, ?_, ?_⟩
          · intro a ha
            have hamem : a ∈ r.allIds := pathTo_subset_allIds hxr a ha
            simp only [List.mem_cons, not_or]
            refine ⟨fun hcontra => hmr (hcontra ▸ hamem), ?_⟩
            intro hcontra
            exact hdisj (pathTo_subset_allIds hyl a hcontra) hamem
          · intro a ha
            have hamem : a ∈ l.allIds := pathTo_subset_allIds hyl a ha
            simp only [List.mem_cons, not_or]
            refine ⟨fun hcontra => hml (hcontra ▸ hamem), ?_⟩
            intro hcontra
            exact hdisj hamem (pathTo_subset_allIds hxr a hcontra)
    · cases hx
      rcases hyl : pathTo y l with _ | ply <;> rw [hyl] at hy
      · rcases hyr : pathTo y r with _ | pry <;> rw [hyr] at hy
        · exact absurd hy (by simp)
        · -- x left, y right
          cases hy
          refine ⟨[m], plx, pry, rfl, rfl, by simp, ?_, ?_⟩
          · intro a ha
            have hamem : a ∈ l.allIds := pathTo_subset_allIds hxl a ha
            simp only [List.mem_cons, not_or]
            refine ⟨fun hcontra => hml (hcontra ▸ hamem), ?_⟩
            intro hcontra
            exact hdisj hamem (pathTo_subset_allIds hyr a hcontra)
          · intro a ha
            have hamem : a ∈ r.allIds := pathTo_subset_allIds hyr a ha
            simp only [List.mem_cons, not_or]
            refine ⟨fun hcontra => hmr (hcontra ▸ hamem), ?_⟩
            intro hcontra
            exact hdisj (pathTo_subset_allIds hxl a hcontra) hamem
      · -- both in the left subtree
        cases hy
        obtain ⟨c, qx, qy, hcx, hcy, hc, hqx, hqy⟩ := ihl hndl hxl hyl
        refine ⟨m :: c, qx, qy, by simp [hcx], by simp [hcy], by simp, ?_, ?_⟩
        · intro a ha
          have hamem : a ∈ l.allIds :=
            pathTo_subset_allIds hxl a (by rw [hcx]; exact List.mem_append_right _ ha)
          simp only [List.mem_cons, not_or]
          exact ⟨fun hcontra => hml (hcontra ▸ hamem), hqx a ha⟩
        · intro a ha
          have hamem : a ∈ l.allIds :=
            pathTo_subset_allIds hyl a (by rw [hcy]; exact List.mem_append_right _ ha)
          simp only [List.mem_cons, not_or]
          exact ⟨fun hcontra => hml (hcontra ▸ hamem), hqy a ha⟩

end PTree

lemma find?_append_of_none {P : ℕ → Bool} {A B : List ℕ}
    (h : ∀ a ∈ A, P a = false) :
    List.find? P (A ++ B) = List.find? P B := by
  induction A with
  | nil => simp
  | cons a A ih =>
    rw [List.cons_append, List.find?_cons_of_neg _ (by simp [h a (by simp)])]
    exact ih (fun a ha => h a (by simp [ha]))

/-- Modelled from the spec: `get_common_ancestor` of the core (§4.5) —
guard the leaf indices against `[0, n-1]`, rebuild the construction of `v`,
and return the first node that the two leaf-to-root ancestor chains
share. -/
def get_common_ancestor (v : List ℕ) (i j : ℕ) : Except P2VError ℕ :=
  if v.length + 1 ≤ i ∨ v.length + 1 ≤ j then .error .indexError
  else
    match (PTree.chain (build v) i).find?
        (fun a => decide (a ∈ PTree.chain (build v) j)) with
    | some a => .ok a
    | none => .error .indexError

/-- The two ancestor chains of leaves of a duplicate-free tree always have
a first shared node, the same one from either side; for one single leaf it
is the leaf itself. -/
lemma find?_chain_eq {t : PTree} (hnd : t.allIds.Nodup) {x y : ℕ}
    (hx : x ∈ t.leafList) (hy : y ∈ t.leafList) :
    ∃ z, (PTree.chain t x).find? (fun a => decide (a ∈ PTree.chain t y)) =
        some z ∧
      (PTree.chain t y).find? (fun a => decide (a ∈ PTree.chain t x)) =
        some z ∧
      (x = y → z = x) := by
  obtain ⟨px, hpx⟩ := PTree.pathTo_of_mem hx
  obtain ⟨py, hpy⟩ := PTree.pathTo_of_mem hy
  obtain ⟨c, qx, qy, hcx, hcy, hc, hqx, hqy⟩ :=
    PTree.pathTo_shared_stem hnd hpx hpy
  obtain ⟨cs, z, rfl⟩ : ∃ cs z, c = cs ++ [z] := by
    rcases List.eq_nil_or_concat c with rfl | ⟨cs, z, hz⟩
    · exact absurd rfl hc
    · exact ⟨cs, z, by simpa [List.concat_eq_append] using hz⟩
  have hchx : PTree.chain t x = px.reverse := by simp [PTree.chain, hpx]
  have hchy : PTree.chain t y = py.reverse := by simp [PTree.chain, hpy]
  have hzc : z ∈ cs ++ [z] := by simp
  have hzy : z ∈ py.reverse := by
    rw [hcy]
    simp only [List.mem_reverse, List.mem_append]
    exact .inl (by simp)
  have hzx : z ∈ px.reverse := by
    rw [hcx]
    simp only [List.mem_reverse, List.mem_append]
    exact .inl (by simp)
  have hxrev : px.reverse = qx.reverse ++ (z :: cs.reverse) := by
    rw [hcx]
    simp
  have hyrev : py.reverse = qy.reverse ++ (z :: cs.reverse) := by
    rw [hcy]
    simp
  refine ⟨z, ?_, ?_, ?_⟩
  · rw [hchx, hchy, hxrev]
    rw [find?_append_of_none (fun a ha => ?_), List.find?_cons_of_pos _ (by
      simp only [decide_eq_true_eq]
      rw [hyrev]
      simp)]
    simp only [decide_eq_false_iff_not, List.mem_reverse]
    rw [List.mem_reverse] at ha
    exact hqx a ha
  · rw [hchx, hchy, hyrev]
    rw [find?_append_of_none (fun a ha => ?_), List.find?_cons_of_pos _ (by
      simp only [decide_eq_true_eq]
      rw [hxrev]
      simp)]
    simp only [decide_eq_false_iff_not, List.mem_reverse]
    rw [List.mem_reverse] at ha
    exact hqy a ha
  · rintro rfl
    have hpxy : px = py := by
      rw [hpx] at hpy
      exact Option.some_inj.1 hpy
    have hqxnil : qx = [] := by
      rcases qx with _ | ⟨a, qx'⟩
      · rfl
      · exfalso
        have hamem : a ∈ px := by
          rw [hcx]
          exact List.mem_append_right _ (by simp)
        exact hqx a (by simp) (hpxy ▸ hamem)
    obtain ⟨q, hq⟩ := PTree.pathTo_eq_concat hpx
    rw [hqxnil, List.append_nil] at hcx
    rw [hcx] at hq
    have := List.concat_inj.1 (by simpa [List.concat_eq_append] using hq)
    exact this.2

/-- C6: `get_common_ancestor` is symmetric in its two leaf indices, returns
the leaf id itself when the two indices agree (and are in range), and
reports `IndexError` whenever an index lies outside `[0, n-1]`. -/
theorem get_common_ancestor_spec (v : List ℕ) (i j : ℕ)
    (hv : check_v (v.map (fun (a : ℕ) => (a : ℚ))) = .ok ()) :
    get_common_ancestor v i j = get_common_ancestor v j i ∧
    (i ≤ v.length → get_common_ancestor v i i = .ok i) ∧
    (v.length + 1 ≤ i ∨ v.length + 1 ≤ j →
      get_common_ancestor v i j = .error .indexError) := by
  clear hv
  refine ⟨?_, ?_, ?_⟩
  · by_cases hrange : v.length + 1 ≤ i ∨ v.length + 1 ≤ j
    · rw [get_common_ancestor, if_pos hrange,
        get_common_ancestor, if_pos (hrange.symm)]
    · push_neg at hrange
      obtain ⟨z, hz1, hz2, -⟩ := find?_chain_eq (nodup_allIds_build v)
        ((mem_leafList_build v i).2 (by omega))
        ((mem_leafList_build v j).2 (by omega))
      rw [get_common_ancestor, if_neg (by omega), hz1,
        get_common_ancestor, if_neg (by omega), hz2]
  · intro hi
    obtain ⟨z, hz1, -, hzx⟩ := find?_chain_eq (nodup_allIds_build v)
      ((mem_leafList_build v i).2 (by omega))
      ((mem_leafList_build v i).2 (by omega))
    rw [get_common_ancestor, if_neg (by omega), hz1, hzx rfl]
  · intro hrange
    rw [get_common_ancestor, if_pos hrange]

/-- C6 witness: a concrete run — on the valid vector `[0, 2]` the query is
symmetric in the leaves `0` and `2`. -/
theorem get_common_ancestor_spec_witness :
    get_common_ancestor [0, 2] 0 2 = get_common_ancestor [0, 2] 2 0 :=
  (get_common_ancestor_spec [0, 2] 0 2 (by decide)).1

/-!  ## The label mapper

Modelled from the spec: `create_label_mapping` / `apply_label_mapping`
of the core (§4.3/§4.4) are not under `src/` (`io.py` only wraps them).
Per the spec, `create_label_mapping` scans the leaf tokens of a Newick
string in first-appearance order, assigns each distinct label the string
form of the next integer, substitutes every leaf occurrence, and fails
with `ValueError` when a leaf token already looks like a canonical
integer; `apply_label_mapping` performs the inverse substitution and
fails with `LookupError` on a missing entry.  A Newick string is scanned
as a stream of tokens: the four structural characters `( ) , ;` and
maximal runs of other characters (labels); a label token is a leaf label
exactly when it does not directly follow `)`. -/

/-- One Newick token. -/
inductive Tok where
  | lpar
  | rpar
  | comma
  | semi
  | lbl (w : List Char)
deriving DecidableEq, Repr

/-- The four structural characters of the Newick grammar (§3). -/
def isStructural (c : Char) : Bool :=
  c = '(' || c = ')' || c = ',' || c = ';'

/-- The token of a structural character. -/
def structTok (c : Char) : Tok :=
  if c = '(' then .lpar
  else if c = ')' then .rpar
  else if c = ',' then .comma
  else .semi

/-- The characters of a token. -/
def tokCh : Tok → List Char
  | .lpar => ['(']
  | .rpar => [')']
  | .comma => [',']
  | .semi => [';']
  | .lbl w => w

/-- Characters of a token stream. -/
def render : List Tok → List Char
  | [] => []
  | t :: ts => tokCh t ++ render ts

/-- Fuelled Newick tokenizer: structural characters become their tokens,
maximal runs of other characters become label tokens. -/
def tokenizeAux : ℕ → List Char → List Tok
  | 0, _ => []
  | _ + 1, [] => []
  | fuel + 1, c :: cs =>
      if isStructural c then structTok c :: tokenizeAux fuel cs
      else
        .lbl ((c :: cs).takeWhile (fun d => !isStructural d)) ::
          tokenizeAux fuel ((c :: cs).dropWhile (fun d => !isStructural d))

/-- Tokenize a Newick character list. -/
def tokenize (cs : List Char) : List Tok :=
  tokenizeAux cs.length cs

lemma tokCh_structTok {c : Char} (h : isStructural c = true) :
    tokCh (structTok c) = [c] := by
  simp only [isStructural, Bool.or_eq_true, decide_eq_true_eq] at h
  rcases h with ((rfl | rfl) | rfl) | rfl <;> rfl

lemma render_tokenizeAux :
    ∀ (fuel : ℕ) (cs : List Char), cs.length ≤ fuel →
      render (tokenizeAux fuel cs) = cs := by
  intro fuel
  induction fuel with
  | zero =>
    intro cs hcs
    rw [Nat.le_zero, List.length_eq_zero] at hcs
    subst hcs
    rfl
  | succ f ih =>
    intro cs hcs
    rcases cs with _ | ⟨c, cs'⟩
    · rfl
    · rw [tokenizeAux]
      split
      · next hstruct =>
        rw [render, tokCh_structTok hstruct, ih cs' (by simpa using hcs)]
        rfl
      · next hstruct =>
        rw [render]
        have htake : (c :: cs').takeWhile (fun d => !isStructural d) =
            c :: cs'.takeWhile (fun d => !isStructural d) := by
          rw [List.takeWhile_cons_of_pos (by simpa using hstruct)]
        have hdrop : (c :: cs').dropWhile (fun d => !isStructural d) =
            cs'.dropWhile (fun d => !isStructural d) := by
          rw [List.dropWhile_cons_of_pos (by simpa using hstruct)]
        have hlendrop : (cs'.dropWhile (fun d => !isStructural d)).length ≤ f := by
          have h1 := congrArg List.length
            (List.takeWhile_append_dropWhile (p := fun d => !isStructural d) (l := cs'))
          rw [List.length_append] at h1
          simp only [List.length_cons] at hcs
          omega
        rw [hdrop, ih _ hlendrop, tokCh]
        have h2 := List.takeWhile_append_dropWhile
          (p := fun d => !isStructural d) (l := c :: cs')
        rw [htake] at h2
        rw [hdrop] at h2
        rw [htake]
        exact h2

lemma render_tokenize (cs : List Char) : render (tokenize cs) = cs :=
  render_tokenizeAux cs.length cs (le_refl _)

/-- Is a token a label token? -/
def lblTok : Tok → Bool
  | .lbl _ => true
  | _ => false

/-- A canonical token stream: every label token is a nonempty run of
non-structural characters, and no two label tokens are adjacent —
exactly the streams the tokenizer produces. -/
def TokensWF (ts : List Tok) : Prop :=
  (∀ w, Tok.lbl w ∈ ts → w ≠ [] ∧ ∀ c ∈ w, isStructural c = false) ∧
  List.Chain' (fun a b => lblTok a = false ∨ lblTok b = false) ts

lemma structTok_ne_lbl (c : Char) (w : List Char) : structTok c ≠ .lbl w := by
  unfold structTok
  split_ifs <;> simp

lemma lblTok_structTok (c : Char) : lblTok (structTok c) = false := by
  unfold structTok
  split_ifs <;> rfl

lemma tokenizeAux_head_lbl :
    ∀ {fuel : ℕ} {cs : List Char} {w : List Char},
      (tokenizeAux fuel cs).head? = some (Tok.lbl w) →
      ∃ d cs', cs = d :: cs' ∧ isStructural d = false := by
  intro fuel cs w h
  match fuel, cs with
  | 0, _ => simp [tokenizeAux] at h
  | _ + 1, [] => simp [tokenizeAux] at h
  | fuel + 1, c :: cs' =>
    rw [tokenizeAux] at h
    split at h
    · rw [List.head?_cons, Option.some_inj] at h
      exact absurd h (structTok_ne_lbl c w)
    · next hs => exact ⟨c, cs', rfl, by simpa using hs⟩

lemma tokensWF_tokenizeAux : ∀ (fuel : ℕ) (cs : List Char),
    TokensWF (tokenizeAux fuel cs) := by
  intro fuel
  induction fuel with
  | zero => intro cs; exact ⟨by simp [tokenizeAux], by simp [tokenizeAux]⟩
  | succ f ih =>
    intro cs
    rcases cs with _ | ⟨c, cs'⟩
    · exact ⟨by simp [tokenizeAux], by simp [tokenizeAux]⟩
    · rw [tokenizeAux]
      split
      · next hs =>
        obtain ⟨ihm, ihc⟩ := ih cs'
        refine ⟨?_, ?_⟩
        · intro w hw
          rcases List.mem_cons.1 hw with heq | hmem
          · exact absurd heq.symm (structTok_ne_lbl c w)
          · exact ihm w hmem
        · rw [List.chain'_cons']
          exact ⟨fun b _ => .inl (lblTok_structTok c), ihc⟩
      · next hs =>
        obtain ⟨ihm, ihc⟩ := ih ((c :: cs').dropWhile (fun d => !isStructural d))
        refine ⟨?_, ?_⟩
        · intro w hw
          rcases List.mem_cons.1 hw with heq | hmem
          · have hweq : w = (c :: cs').takeWhile (fun d => !isStructural d) := by
              injection heq
            subst hweq
            constructor
            · rw [List.takeWhile_cons_of_pos (by simpa using hs)]
              simp
            · intro x hx
              have := List.mem_takeWhile_imp hx
              simpa using this
          · exact ihm w hmem
        · rw [List.chain'_cons']
          refine ⟨?_, ihc⟩
          intro b hb
          rcases b with _ | _ | _ | _ | w'
          · exact .inr rfl
          · exact .inr rfl
          · exact .inr rfl
          · exact .inr rfl
          · exfalso
            obtain ⟨d, cs'', hdeq, hdns⟩ := tokenizeAux_head_lbl hb
            have := List.head?_dropWhile_not (fun d => !isStructural d) (c :: cs')
            rw [hdeq] at this
            simp only [List.head?_cons] at this
            simp only [Bool.not_eq_false'] at this
            rw [this] at hdns
            exact Bool.noConfusion hdns

lemma head_render_structural {rest : List Tok}
    (hhead : ∀ b, rest.head? = some b → lblTok b = false) :
    ∀ x, (render rest).head? = some x → isStructural x = true := by
  intro x hx
  rcases rest with _ | ⟨b, rest'⟩
  · simp [render] at hx
  · have hb := hhead b rfl
    rcases b with _ | _ | _ | _ | w
    · rw [render] at hx
      simp [tokCh] at hx
      subst hx
      decide
    · rw [render] at hx
      simp [tokCh] at hx
      subst hx
      decide
    · rw [render] at hx
      simp [tokCh] at hx
      subst hx
      decide
    · rw [render] at hx
      simp [tokCh] at hx
      subst hx
      decide
    · exact absurd hb (by simp [lblTok])

lemma tokenizeAux_render :
    ∀ (ts : List Tok) (fuel : ℕ), TokensWF ts → (render ts).length ≤ fuel →
      tokenizeAux fuel (render ts) = ts := by
  intro ts
  induction ts with
  | nil =>
    intro fuel _ _
    cases fuel <;> rfl
  | cons t rest ih =>
    intro fuel hwf hfuel
    obtain ⟨hm, hc⟩ := hwf
    rw [List.chain'_cons'] at hc
    obtain ⟨hhead, hcrest⟩ := hc
    have hwfrest : TokensWF rest := ⟨fun w hw => hm w (by simp [hw]), hcrest⟩
    rcases t with _ | _ | _ | _ | w
    · rcases Nat.exists_eq_succ_of_ne_zero
        (by rw [render] at hfuel; simp [tokCh] at hfuel; omega : fuel ≠ 0) with ⟨f, rfl⟩
      rw [render]
      show tokenizeAux (f + 1) ('(' :: render rest) = _
      rw [tokenizeAux, if_pos (by decide)]
      rw [ih f hwfrest (by rw [render] at hfuel; simp [tokCh] at hfuel; omega)]
      rfl
    · rcases Nat.exists_eq_succ_of_ne_zero
        (by rw [render] at hfuel; simp [tokCh] at hfuel; omega : fuel ≠ 0) with ⟨f, rfl⟩
      rw [render]
      show tokenizeAux (f + 1) (')' :: render rest) = _
      rw [tokenizeAux, if_pos (by decide)]
      rw [ih f hwfrest (by rw [render] at hfuel; simp [tokCh] at hfuel; omega)]
      rfl
    · rcases Nat.exists_eq_succ_of_ne_zero
        (by rw [render] at hfuel; simp [tokCh] at hfuel; omega : fuel ≠ 0) with ⟨f, rfl⟩
      rw [render]
      show tokenizeAux (f + 1) (',' :: render rest) = _
      rw [tokenizeAux, if_pos (by decide)]
      rw [ih f hwfrest (by rw [render] at hfuel; simp [tokCh] at hfuel; omega)]
      rfl
    · rcases Nat.exists_eq_succ_of_ne_zero
        (by rw [render] at hfuel; simp [tokCh] at hfuel; omega : fuel ≠ 0) with ⟨f, rfl⟩
      rw [render]
      show tokenizeAux (f + 1) (';' :: render rest) = _
      rw [tokenizeAux, if_pos (by decide)]
      rw [ih f hwfrest (by rw [render] at hfuel; simp [tokCh] at hfuel; omega)]
      rfl
    · obtain ⟨hwne, hwns⟩ := hm w (by simp)
      rcases w with _ | ⟨c, w'⟩
      · exact absurd rfl hwne
      · rcases Nat.exists_eq_succ_of_ne_zero
          (by rw [render] at hfuel; simp [tokCh] at hfuel; omega : fuel ≠ 0) with ⟨f, rfl⟩
        rw [render]
        have hcns : isStructural c = false := hwns c (by simp)
        have hsplit := Decimal.takeWhile_append_of_all
          (p := fun d => !isStructural d) (l := c :: w') (r := render rest)
          (fun x hx => by simp [hwns x hx])
          (fun x hx => by
            have := head_render_structural
              (fun b hb => by
                have := hhead b hb
                rcases this with h | h
                · exact absurd h (by simp [lblTok])
                · exact h) x hx
            simp [this])
        show tokenizeAux (f + 1) ((c :: w') ++ render rest) = _
        rw [show (c :: w') ++ render rest = c :: (w' ++ render rest) from rfl]
        rw [tokenizeAux, if_neg (by simp [hcns])]
        rw [show c :: (w' ++ render rest) = (c :: w') ++ render rest from rfl]
        rw [hsplit.1, hsplit.2]
        rw [ih f hwfrest (by rw [render] at hfuel; simp [tokCh] at hfuel; omega)]

lemma tokenize_render {ts : List Tok} (hwf : TokensWF ts) :
    tokenize (render ts) = ts :=
  tokenizeAux_render ts (render ts).length hwf (le_refl _)

/-- The leaf labels of a token stream in first-appearance order: label
tokens that do not directly follow `)` (those following `)` label internal
nodes). -/
def leafLabels : List Tok → Option Tok → List (List Char)
  | [], _ => []
  | t :: rest, prev =>
      match t with
      | .lbl w =>
          if prev = some Tok.rpar then leafLabels rest (some t)
          else w :: leafLabels rest (some t)
      | _ => leafLabels rest (some t)

/-- The pure substitution `create_label_mapping` performs on the token
stream when every leaf label is fresh: the `k`-th leaf label becomes the
digit string of `ctr + k`. -/
def substToks : List Tok → Option Tok → ℕ → List Tok
  | [], _, _ => []
  | t :: rest, prev, ctr =>
      match t with
      | .lbl _ =>
          if prev = some Tok.rpar then t :: substToks rest (some t) ctr
          else .lbl (Decimal.natDigits ctr) :: substToks rest (some t) (ctr + 1)
      | _ => t :: substToks rest (some t) ctr

/-- The mapping entries `create_label_mapping` accumulates: label `k` of
the list maps to the digit string of `c + k`. -/
def newEntries : List (List Char) → ℕ → List (List Char × List Char)
  | [], _ => []
  | w :: ws, c => (w, Decimal.natDigits c) :: newEntries ws (c + 1)

/-- Modelled from the spec (§4.3): the scan of `create_label_mapping` over
the token stream — each leaf label is checked against the canonical-integer
form (`ValueError`), looked up in the mapping accumulated so far, assigned
the next integer when new, and substituted; internal-node labels and
structural tokens pass through. -/
def clmToks : List Tok → Option Tok → List (List Char × List Char) → ℕ →
    Except P2VError (List Tok × List (List Char × List Char))
  | [], _, m, _ => .ok ([], m)
  | t :: rest, prev, m, ctr =>
      match t with
      | .lbl w =>
          if prev = some Tok.rpar then
            match clmToks rest (some t) m ctr with
            | .ok (ts, m') => .ok (t :: ts, m')
            | .error e => .error e
          else if w.all Char.isDigit then .error .valueError
          else
            match m.find? (fun e => e.1 == w) with
            | some e =>
                match clmToks rest (some t) m ctr with
                | .ok (ts, m') => .ok (.lbl e.2 :: ts, m')
                | .error er => .error er
            | none =>
                match clmToks rest (some t)
                    (m ++ [(w, Decimal.natDigits ctr)]) (ctr + 1) with
                | .ok (ts, m') => .ok (.lbl (Decimal.natDigits ctr) :: ts, m')
                | .error er => .error er
      | _ =>
          match clmToks rest (some t) m ctr with
          | .ok (ts, m') => .ok (t :: ts, m')
          | .error e => .error e

/-- Modelled from the spec (§4.4): the scan of `apply_label_mapping` — each
leaf label is looked up by value in the mapping and replaced by its key,
`LookupError` when absent; internal labels and structural tokens pass
through. -/
def almToks : List Tok → Option Tok → List (List Char × List Char) →
    Except P2VError (List Tok)
  | [], _, _ => .ok []
  | t :: rest, prev, m =>
      match t with
      | .lbl w =>
          if prev = some Tok.rpar then
            match almToks rest (some t) m with
            | .ok ts => .ok (t :: ts)
            | .error e => .error e
          else
            match m.find? (fun e => e.2 == w) with
            | some e =>
                match almToks rest (some t) m with
                | .ok ts => .ok (.lbl e.1 :: ts)
                | .error er => .error er
            | none => .error .lookupError
      | _ =>
          match almToks rest (some t) m with
          | .ok ts => .ok (t :: ts)
          | .error e => .error e

/-- Modelled from the spec: `create_label_mapping` of the core (§4.3). -/
def create_label_mapping (s : String) :
    Except P2VError (String × List (List Char × List Char)) :=
  match clmToks (tokenize s.toList) none [] 0 with
  | .ok (ts, m) => .ok (⟨render ts⟩, m)
  | .error e => .error e

/-- Modelled from the spec: `apply_label_mapping` of the core (§4.4). -/
def apply_label_mapping (s : String) (m : List (List Char × List Char)) :
    Except P2VError String :=
  match almToks (tokenize s.toList) none m with
  | .ok ts => .ok ⟨render ts⟩
  | .error e => .error e

/-- When every leaf label is fresh, non-canonical and distinct, the create
scan succeeds and produces exactly the index substitution and the zipped
mapping. -/
lemma clmToks_eq :
    ∀ (toks : List Tok) (prev : Option Tok)
      (m : List (List Char × List Char)) (ctr : ℕ),
      (leafLabels toks prev).Nodup →
      (∀ w ∈ leafLabels toks prev, ∀ e ∈ m, e.1 ≠ w) →
      (∀ w ∈ leafLabels toks prev, w.all Char.isDigit = false) →
      clmToks toks prev m ctr =
        .ok (substToks toks prev ctr,
          m ++ newEntries (leafLabels toks prev) ctr) := by
  intro toks
  induction toks with
  | nil =>
    intro prev m ctr _ _ _
    simp [clmToks, substToks, leafLabels, newEntries]
  | cons t rest ih =>
    intro prev m ctr hnd hfresh hnc
    rcases t with _ | _ | _ | _ | w
    · rw [clmToks, ih (some .lpar) m ctr
        (by simpa [leafLabels] using hnd)
        (by simpa [leafLabels] using hfresh)
        (by simpa [leafLabels] using hnc)]
      simp only [substToks, leafLabels]
      intro w h
      exact Tok.noConfusion h
    · rw [clmToks, ih (some .rpar) m ctr
        (by simpa [leafLabels] using hnd)
        (by simpa [leafLabels] using hfresh)
        (by simpa [leafLabels] using hnc)]
      simp only [substToks, leafLabels]
      intro w h
      exact Tok.noConfusion h
    · rw [clmToks, ih (some .comma) m ctr
        (by simpa [leafLabels] using hnd)
        (by simpa [leafLabels] using hfresh)
        (by simpa [leafLabels] using hnc)]
      simp only [substToks, leafLabels]
      intro w h
      exact Tok.noConfusion h
    · rw [clmToks, ih (some .semi) m ctr
        (by simpa [leafLabels] using hnd)
        (by simpa [leafLabels] using hfresh)
        (by simpa [leafLabels] using hnc)]
      simp only [substToks, leafLabels]
      intro w h
      exact Tok.noConfusion h
    · by_cases hprev : prev = some Tok.rpar
      · subst hprev
        rw [clmToks]
        simp only [if_pos rfl]
        have hlbls : leafLabels (Tok.lbl w :: rest) (some Tok.rpar) =
            leafLabels rest (some (Tok.lbl w)) := by
          rw [leafLabels, if_pos rfl]
        rw [hlbls] at hnd hfresh hnc
        rw [ih (some (Tok.lbl w)) m ctr hnd hfresh hnc]
        simp [substToks, hlbls]
      · have hlbls : leafLabels (Tok.lbl w :: rest) prev =
            w :: leafLabels rest (some (Tok.lbl w)) := by
          rw [leafLabels]
          simp [hprev]
        rw [hlbls] at hnd hfresh hnc
        have hwnd : w.all Char.isDigit = false := hnc w (by simp)
        have hfind : m.find? (fun e => e.1 == w) = none := by
          rw [List.find?_eq_none]
          intro e he
          simpa using hfresh w (by simp) e he
        rw [clmToks]
        rw [if_neg hprev, if_neg (by simp [hwnd]), hfind]
        rw [ih (some (Tok.lbl w)) (m ++ [(w, Decimal.natDigits ctr)]) (ctr + 1)
          (by exact (List.nodup_cons.1 hnd).2)
          (by
            intro u hu e he
            rcases List.mem_append.1 he with he | he
            · exact hfresh u (by simp [hu]) e he
            · rw [List.mem_singleton] at he
              subst he
              intro hcontra
              refine (List.nodup_cons.1 hnd).1 ?_
              have hwu : w = u := hcontra
              nth_rewrite 2 [hwu]
              exact hu)
          (fun u hu => hnc u (by simp [hu]))]
        simp [substToks, hprev, hlbls, newEntries]

lemma not_structural_of_isDigit {c : Char} (h : c.isDigit = true) :
    isStructural c = false := by
  by_contra hs
  rw [Bool.not_eq_false] at hs
  simp only [isStructural, Bool.or_eq_true, decide_eq_true_eq] at hs
  rcases hs with ((rfl | rfl) | rfl) | rfl <;> exact absurd h (by decide)

lemma substToks_cons (t : Tok) (rest : List Tok) (prev : Option Tok) (ctr : ℕ) :
    ∃ t' ctr', substToks (t :: rest) prev ctr =
      t' :: substToks rest (some t) ctr' ∧ lblTok t' = lblTok t := by
  rcases t with _ | _ | _ | _ | w
  · exact ⟨.lpar, ctr, by rw [substToks]; intro w h; exact Tok.noConfusion h, rfl⟩
  · exact ⟨.rpar, ctr, by rw [substToks]; intro w h; exact Tok.noConfusion h, rfl⟩
  · exact ⟨.comma, ctr, by rw [substToks]; intro w h; exact Tok.noConfusion h, rfl⟩
  · exact ⟨.semi, ctr, by rw [substToks]; intro w h; exact Tok.noConfusion h, rfl⟩
  · by_cases hprev : prev = some Tok.rpar
    · exact ⟨.lbl w, ctr, by rw [substToks, if_pos hprev], rfl⟩
    · exact ⟨.lbl (Decimal.natDigits ctr), ctr + 1,
        by rw [substToks, if_neg hprev], rfl⟩

lemma lblTok_head_substToks {rest : List Tok} {prev : Option Tok} {ctr : ℕ}
    {b : Tok} (h : (substToks rest prev ctr).head? = some b) :
    ∃ b0, rest.head? = some b0 ∧ lblTok b = lblTok b0 := by
  rcases rest with _ | ⟨u, rest'⟩
  · simp [substToks] at h
  · obtain ⟨u', ctr', heq, hlbl⟩ := substToks_cons u rest' prev ctr
    rw [heq, List.head?_cons, Option.some_inj] at h
    exact ⟨u, rfl, h ▸ hlbl⟩

lemma tokensWF_substToks :
    ∀ (toks : List Tok) (prev : Option Tok) (ctr : ℕ),
      TokensWF toks → TokensWF (substToks toks prev ctr) := by
  intro toks
  induction toks with
  | nil =>
    intro prev ctr _
    exact ⟨by simp [substToks], by simp [substToks]⟩
  | cons t rest ih =>
    intro prev ctr hwf
    obtain ⟨hm, hc⟩ := hwf
    rw [List.chain'_cons'] at hc
    obtain ⟨hhead, hcrest⟩ := hc
    have hwfrest : TokensWF rest := ⟨fun w hw => hm w (by simp [hw]), hcrest⟩
    obtain ⟨t', ctr', heq, hlbl⟩ := substToks_cons t rest prev ctr
    have hnew : ∀ w, t' = Tok.lbl w → w ≠ [] ∧ ∀ c ∈ w, isStructural c = false := by
      intro w hw
      rcases t with _ | _ | _ | _ | w0
      · rw [substToks] at heq
        rw [← (List.cons_eq_cons.1 heq).1] at hw
        exact Tok.noConfusion hw
        intro w' h'
        exact Tok.noConfusion h'
      · rw [substToks] at heq
        rw [← (List.cons_eq_cons.1 heq).1] at hw
        exact Tok.noConfusion hw
        intro w' h'
        exact Tok.noConfusion h'
      · rw [substToks] at heq
        rw [← (List.cons_eq_cons.1 heq).1] at hw
        exact Tok.noConfusion hw
        intro w' h'
        exact Tok.noConfusion h'
      · rw [substToks] at heq
        rw [← (List.cons_eq_cons.1 heq).1] at hw
        exact Tok.noConfusion hw
        intro w' h'
        exact Tok.noConfusion h'
      · by_cases hprev : prev = some Tok.rpar
        · rw [substToks, if_pos hprev] at heq
          have : t' = Tok.lbl w0 := (List.cons_eq_cons.1 heq).1.symm
          rw [this] at hw
          have hww : w = w0 := by injection hw.symm
          subst hww
          exact hm w (by simp)
        · rw [substToks, if_neg hprev] at heq
          have : t' = Tok.lbl (Decimal.natDigits ctr) :=
            (List.cons_eq_cons.1 heq).1.symm
          rw [this] at hw
          have hww : w = Decimal.natDigits ctr := by injection hw.symm
          subst hww
          refine ⟨Decimal.natDigits_ne_nil ctr, fun c hcmem => ?_⟩
          exact not_structural_of_isDigit (Decimal.natDigits_all_isDigit ctr c hcmem)
    obtain ⟨ihm, ihc⟩ := ih (some t) ctr' hwfrest
    rw [heq]
    refine ⟨?_, ?_⟩
    · intro w hw
      rcases List.mem_cons.1 hw with heq' | hmem
      · exact hnew w heq'.symm
      · exact ihm w hmem
    · rw [List.chain'_cons']
      refine ⟨?_, ihc⟩
      intro b hb
      obtain ⟨b0, hb0, hlblb⟩ := lblTok_head_substToks hb
      rcases hhead b0 hb0 with h | h
      · exact .inl (by rw [hlbl, h])
      · exact .inr (by rw [hlblb, h])

lemma find?_by_value :
    ∀ (M : List (List Char × List Char)) (w d : List Char),
      (M.map Prod.snd).Nodup → (w, d) ∈ M →
      M.find? (fun e => e.2 == d) = some (w, d) := by
  intro M
  induction M with
  | nil =>
    intro w d _ h
    cases h
  | cons e M ih =>
    intro w d hnd hmem
    rw [List.map_cons, List.nodup_cons] at hnd
    rcases List.mem_cons.1 hmem with rfl | hmem'
    · rw [List.find?_cons_of_pos _ (by simp)]
    · by_cases hed : e.2 = d
      · exfalso
        have : d ∈ M.map Prod.snd := List.mem_map.2 ⟨(w, d), hmem', rfl⟩
        exact hnd.1 (hed ▸ this)
      · rw [List.find?_cons_of_neg _ (by simp [hed])]
        exact ih w d hnd.2 hmem'

lemma newEntries_snd :
    ∀ (ls : List (List Char)) (c : ℕ),
      (newEntries ls c).map Prod.snd =
        (List.range' c ls.length).map Decimal.natDigits := by
  intro ls
  induction ls with
  | nil => intro c; rfl
  | cons w ws ih =>
    intro c
    rw [newEntries, List.map_cons, ih (c + 1), List.length_cons,
      List.range'_succ, List.map_cons]

lemma newEntries_mem :
    ∀ (ls : List (List Char)) (c k : ℕ) (d : List Char),
      ls[k]? = some d → (d, Decimal.natDigits (c + k)) ∈ newEntries ls c := by
  intro ls
  induction ls with
  | nil =>
    intro c k d h
    simp at h
  | cons w ws ih =>
    intro c k d h
    cases k with
    | zero =>
      simp only [List.getElem?_cons_zero, Option.some_inj] at h
      subst h
      simp [newEntries]
    | succ k' =>
      rw [List.getElem?_cons_succ] at h
      have := ih (c + 1) k' d h
      rw [show c + (k' + 1) = (c + 1) + k' by omega]
      exact List.mem_cons.2 (.inr this)

/-- The apply scan inverts the create substitution: each substituted leaf
index looks up, in the final mapping, exactly the original label. -/
lemma almToks_substToks :
    ∀ (toks : List Tok) (prev0 prevS : Option Tok) (ctr : ℕ)
      (M : List (List Char × List Char)),
      ((prev0 = some Tok.rpar) ↔ (prevS = some Tok.rpar)) →
      (M.map Prod.snd).Nodup →
      (∀ k d, (leafLabels toks prev0)[k]? = some d →
        (d, Decimal.natDigits (ctr + k)) ∈ M) →
      almToks (substToks toks prev0 ctr) prevS M = .ok toks := by
  intro toks
  induction toks with
  | nil =>
    intro prev0 prevS ctr M _ _ _
    simp [substToks, almToks]
  | cons t rest ih =>
    intro prev0 prevS ctr M hiff hnd hmem
    rcases t with _ | _ | _ | _ | w
    · have hmem' : ∀ (k : ℕ) (d : List Char),
          (leafLabels rest (some Tok.lpar))[k]? = some d →
          (d, Decimal.natDigits (ctr + k)) ∈ M := by
        intro k d hk
        refine hmem k d ?_
        rw [leafLabels]
        exact hk
        intro w' h'
        exact Tok.noConfusion h'
      rw [substToks, almToks, ih (some .lpar) (some .lpar) ctr M Iff.rfl hnd hmem']
      all_goals intro w' h'
      all_goals exact Tok.noConfusion h'
    · have hmem' : ∀ (k : ℕ) (d : List Char),
          (leafLabels rest (some Tok.rpar))[k]? = some d →
          (d, Decimal.natDigits (ctr + k)) ∈ M := by
        intro k d hk
        refine hmem k d ?_
        rw [leafLabels]
        exact hk
        intro w' h'
        exact Tok.noConfusion h'
      rw [substToks, almToks, ih (some .rpar) (some .rpar) ctr M Iff.rfl hnd hmem']
      all_goals intro w' h'
      all_goals exact Tok.noConfusion h'
    · have hmem' : ∀ (k : ℕ) (d : List Char),
          (leafLabels rest (some Tok.comma))[k]? = some d →
          (d, Decimal.natDigits (ctr + k)) ∈ M := by
        intro k d hk
        refine hmem k d ?_
        rw [leafLabels]
        exact hk
        intro w' h'
        exact Tok.noConfusion h'
      rw [substToks, almToks, ih (some .comma) (some .comma) ctr M Iff.rfl hnd hmem']
      all_goals intro w' h'
      all_goals exact Tok.noConfusion h'
    · have hmem' : ∀ (k : ℕ) (d : List Char),
          (leafLabels rest (some Tok.semi))[k]? = some d →
          (d, Decimal.natDigits (ctr + k)) ∈ M := by
        intro k d hk
        refine hmem k d ?_
        rw [leafLabels]
        exact hk
        intro w' h'
        exact Tok.noConfusion h'
      rw [substToks, almToks, ih (some .semi) (some .semi) ctr M Iff.rfl hnd hmem']
      all_goals intro w' h'
      all_goals exact Tok.noConfusion h'
    · by_cases hprev : prev0 = some Tok.rpar
      · have hprevS : prevS = some Tok.rpar := hiff.1 hprev
        subst hprev
        subst hprevS
        have hlbls : leafLabels (Tok.lbl w :: rest) (some Tok.rpar) =
            leafLabels rest (some (Tok.lbl w)) := by
          rw [leafLabels, if_pos rfl]
        rw [hlbls] at hmem
        rw [substToks, if_pos rfl, almToks, if_pos rfl,
          ih (some (Tok.lbl w)) (some (Tok.lbl w)) ctr M Iff.rfl hnd hmem]
      · have hprevS : ¬ prevS = some Tok.rpar := fun h => hprev (hiff.2 h)
        have hlbls : leafLabels (Tok.lbl w :: rest) prev0 =
            w :: leafLabels rest (some (Tok.lbl w)) := by
          rw [leafLabels, if_neg hprev]
        rw [hlbls] at hmem
        have hw0 : (w, Decimal.natDigits ctr) ∈ M := by
          have := hmem 0 w (by simp)
          simpa using this
        rw [substToks, if_neg hprev, almToks, if_neg hprevS,
          find?_by_value M w (Decimal.natDigits ctr) hnd hw0,
          ih (some (Tok.lbl w)) (some (Tok.lbl (Decimal.natDigits ctr)))
            (ctr + 1) M (by simp) hnd
            (fun k d hk => by
              have := hmem (k + 1) d (by simpa using hk)
              rwa [show ctr + (k + 1) = ctr + 1 + k by omega] at this)]

/-- Executable check of the Newick token grammar of §3:
`subtree := leaf | "(" subtree "," subtree ")" label?`, terminated by
`;`. -/
def newickSubAux : ℕ → List Tok → Option (List Tok)
  | 0, _ => none
  | _ + 1, .lbl _ :: rest => some rest
  | fuel + 1, .lpar :: rest =>
      match newickSubAux fuel rest with
      | some (Tok.comma :: r2) =>
          match newickSubAux fuel r2 with
          | some (Tok.rpar :: Tok.lbl _ :: r4) => some r4
          | some (Tok.rpar :: r4) => some r4
          | _ => none
      | _ => none
  | _ + 1, _ => none

/-- Does a token stream belong to the Newick grammar of §3? -/
def isNewickToks (ts : List Tok) : Bool :=
  match newickSubAux (ts.length + 1) ts with
  | some rest => rest == [Tok.semi]
  | none => false

/-- C4: on a grammatical Newick string whose leaf labels are distinct and
not canonical integers, `create_label_mapping` succeeds and
`apply_label_mapping` applied to its output reconstructs the original
string exactly (in particular a string of the same topology with the same
leaf labels). -/
theorem apply_create_label_mapping (s : String)
    (hwf : isNewickToks (tokenize s.toList) = true)
    (hdist : (leafLabels (tokenize s.toList) none).Nodup)
    (hnc : ∀ w ∈ leafLabels (tokenize s.toList) none,
      w.all Char.isDigit = false) :
    ∃ t m, create_label_mapping s = .ok (t, m) ∧
      apply_label_mapping t m = .ok s := by
  clear hwf
  have h1 := clmToks_eq (tokenize s.toList) none [] 0 hdist (by simp) hnc
  rw [List.nil_append] at h1
  refine ⟨⟨render (substToks (tokenize s.toList) none 0)⟩,
    newEntries (leafLabels (tokenize s.toList) none) 0, ?_, ?_⟩
  · rw [create_label_mapping, h1]
  · rw [apply_label_mapping]
    have htl : (String.mk (render (substToks (tokenize s.toList) none 0))).toList =
        render (substToks (tokenize s.toList) none 0) := rfl
    have hwfT : TokensWF (tokenize s.toList) :=
      tokensWF_tokenizeAux s.toList.length s.toList
    rw [htl, tokenize_render (tokensWF_substToks _ none 0 hwfT)]
    rw [almToks_substToks (tokenize s.toList) none none 0
      (newEntries (leafLabels (tokenize s.toList) none) 0) Iff.rfl
      (by
        rw [newEntries_snd]
        exact List.Nodup.map Decimal.natDigits_injective (List.nodup_range' _ _))
      (fun k d hk => newEntries_mem _ 0 k d hk)]
    dsimp only
    rw [render_tokenize]
    show Except.ok (String.mk s.data) = .ok s
    cases s
    rfl

/-- C4 witness: the spec example `((A,B),(D,E));` survives the label
round trip. -/
theorem apply_create_label_mapping_witness :
    ∃ t m, create_label_mapping "((A,B),(D,E));" = .ok (t, m) ∧
      apply_label_mapping t m = .ok "((A,B),(D,E));" :=
  apply_create_label_mapping "((A,B),(D,E));" (by decide) (by decide)
    (by decide)

/-! ## The `phylo2vec.utils` package interface

`phylo2vec/utils/__init__.py` imports a fixed list of names from each
submodule; the `io` submodule binds exactly the module-level functions it
defines.  Both lists are transcribed from the source. -/

/-- The names `phylo2vec/utils/__init__.py` imports from `.io`
(lines 21–28). -/
def utilsInitIoImports : List String :=
  ["read_vector_csv", "write_vector_csv", "read_newick_file",
   "write_newick_file", "read_newick_file_labeled", "write_newick_file_labeled"]

/-- The module-level names `phylo2vec/utils/io.py` defines (its six `def`
statements). -/
def ioModuleDefs : List String :=
  ["read_csv", "write_csv", "read_newick", "read_newick_labeled",
   "write_newick", "write_newick_labeled"]

/-- C8: none of the six names that `phylo2vec/utils/__init__.py` imports
from `.io` is defined in `io.py`, so the `from .io import ...` statement —
and with it any import of the package interface — fails with
`ImportError`. -/
theorem utils_init_io_imports_unbound :
    utilsInitIoImports.all (fun name => ¬ ioModuleDefs.contains name) := by
  decide

end Phylo2Vec

namespace VersionScripts

/-!  ## The release version-bump helpers

`increment_patch_version` appears in both `resources/update_python_version.py`
(regex `(\d+\.\d+\.\d+)`) and `resources/update_r_version.py` (regex
`(\d+\.\d+\.\d+)(?:\.\d+)?`).  Group 1 of the two regexes is the same, and
the code after the match line is identical, so one embedding covers both.
Since `.` never matches a digit, the greedy `\d+` runs admit no useful
backtracking: each match is equivalent to taking the maximal digit run and
then demanding a literal dot, which is how `matchSemverPrefix` proceeds. -/

open Decimal

/-- The Python exception a failed `re.match(...).group(1)` raises. -/
inductive PyExc where
  | attributeError
deriving DecidableEq, Repr

/-- Consume one literal `'.'`. -/
def expectDot : List Char → Option (List Char)
  | '.' :: r => some r
  | _ => none

/-- `re.match(r'(\d+\.\d+\.\d+)', s)` restricted to group 1 (anchored at the
start of the string): three nonempty digit runs separated by literal dots.
Returns `none` when the regex does not match. -/
def matchSemverPrefix (cs : List Char) : Option (List Char) := do
  let (d1, r1) := takeDigits cs
  if d1.isEmpty then none
  else do
    let r2 ← expectDot r1
    let (d2, r3) := takeDigits r2
    if d2.isEmpty then none
    else do
      let r4 ← expectDot r3
      let (d3, _) := takeDigits r4
      if d3.isEmpty then none
      else some (d1 ++ '.' :: d2 ++ '.' :: d3)

/-- `increment_patch_version` from `resources/update_python_version.py`
(and, identically, `resources/update_r_version.py`): match the semver
prefix (an unmatched regex makes `.group(1)` raise `AttributeError`), fall
back to the input on an empty or non-3-part base version, otherwise
increment the patch component. -/
def increment_patch_version (s : List Char) : Except PyExc (List Char) :=
  match matchSemverPrefix s with
  | none => .error .attributeError
  | some base_version =>
      if base_version.isEmpty then .ok s
      else
        let parts := base_version.splitOn '.'
        if parts.length ≠ 3 then .ok s
        else
          match parts with
          | [maj, minor, pat] =>
              if pat.all Char.isDigit then
                .ok (maj ++ '.' :: minor ++ '.' :: natDigits (digitsToNat pat + 1))
              else .ok s
          | _ => .ok s

lemma matchSemverPrefix_some_ne_nil {s g : List Char}
    (h : matchSemverPrefix s = some g) : g.isEmpty = false := by
  unfold matchSemverPrefix at h
  rcases hd1 : takeDigits s with ⟨d1, r1⟩
  rw [hd1] at h
  dsimp only at h
  by_cases h1 : d1.isEmpty
  · simp [h1] at h
  · rw [if_neg h1] at h
    cases hr2 : expectDot r1 with
    | none => simp [hr2, Bind.bind, Option.bind] at h
    | some r2 =>
      simp only [hr2, Bind.bind, Option.bind] at h
      rcases hd2 : takeDigits r2 with ⟨d2, r3⟩
      rw [hd2] at h
      dsimp only at h
      by_cases h2 : d2.isEmpty
      · simp [h2] at h
      · rw [if_neg h2] at h
        cases hr4 : expectDot r3 with
        | none => simp [hr4, Option.bind] at h
        | some r4 =>
          simp only [hr4, Option.bind] at h
          rcases hd3 : takeDigits r4 with ⟨d3, r5⟩
          rw [hd3] at h
          dsimp only at h
          by_cases h3 : d3.isEmpty
          · simp [h3] at h
          · rw [if_neg h3, Option.some_inj] at h
            subst h
            rcases d1 with _ | ⟨a, d1'⟩
            · simp at h1
            · simp

/-- C10: `increment_patch_version` (shared by
`resources/update_python_version.py` and `resources/update_r_version.py`)
raises `AttributeError` on every string the semver regex does not match —
it never returns such an input unchanged — and the fallback branch guarding
an empty `base_version` can never fire, because a successful match always
captures a nonempty group 1. -/
theorem increment_patch_version_unmatched_raises (s g : List Char) :
    (matchSemverPrefix s = none →
      increment_patch_version s = .error .attributeError) ∧
    (matchSemverPrefix s = some g → g.isEmpty = false) := by
  constructor
  · intro h
    unfold increment_patch_version
    rw [h]
  · exact matchSemverPrefix_some_ne_nil

/-- C10 witness: on `"abc"` the regex does not match and the function
raises `AttributeError`. -/
theorem increment_patch_version_unmatched_raises_witness :
    increment_patch_version ['a', 'b', 'c'] = .error .attributeError :=
  (increment_patch_version_unmatched_raises ['a', 'b', 'c'] []).1 (by decide)

end VersionScripts
